import Mathlib

set_option autoImplicit false

/-!
# Seekable zstd format: writer and decoder index

A shallow embedding of `writer.go` (the `WriterImpl` methods `Write`, `Close`,
`writeSeekTable`) and of `pkg/decoder.go` (the `readerImpl` lookups
`GetIndexByDecompOffset`, `GetIndexByID`), followed by theorems about them.

Conventions.
* A byte slice is a `List Nat`; bytes produced here are always `< 256`.
* Go's `int` / `int64` results are `Int`, lengths are `Nat`; a conversion to
  `uint32` / `uint64` is written as an explicit remainder.
* A Go `error` is an `Option GoError`, `none` being `nil`.
* The collaborators of the writer (the zstd encoder and the `WEnvironment`
  sink) are external: they are a record of functions over an arbitrary state
  `W`, and every call made on them is also appended to a log.
-/

namespace Seekable

/-! ## Machine integers and byte slices -/

abbrev Bytes := List Nat

/-- The constant `math.MaxUint32`. -/
def MaxUint32 : Nat := 4294967295

/-- The conversion `uint32(x)` of a non-negative integer. -/
def uint32 (x : Nat) : Nat := x % 4294967296

/-- The conversion `uint64(x)` of a signed 64-bit integer (two's complement). -/
def uint64 (x : Int) : Nat := (x % 18446744073709551616).toNat

/-- The expression `(h << 32) >> 32` on a `uint64` value `h`: the left shift
wraps at 64 bits, the right shift is logical. -/
def shl32shr32 (h : Nat) : Nat := (h * 4294967296 % 18446744073709551616) / 4294967296

/-- The four bytes `binary.LittleEndian.PutUint32` stores for a `uint32`. -/
def putUint32 (v : Nat) : Bytes :=
  [v % 256, v / 256 % 256, v / 65536 % 256, v / 16777216 % 256]

/-- The value `binary.LittleEndian.Uint32` reads from the first four bytes. -/
def getUint32 (b : Bytes) : Nat :=
  b.getD 0 0 + 256 * b.getD 1 0 + 65536 * b.getD 2 0 + 16777216 * b.getD 3 0

/-- The slice `make([]byte, n)`: `n` zero bytes. -/
def make (n : Nat) : Bytes := List.replicate n 0

/-- Storing the bytes `bs` into `buf[lo : lo+len(bs)]`, the rest of `buf` unchanged. -/
def putSlice (buf : Bytes) (lo : Nat) (bs : Bytes) : Bytes :=
  buf.take lo ++ bs ++ buf.drop (lo + bs.length)

/-! ## Errors -/

/-- A single Go error value: the errors `writer.go` builds with `fmt.Errorf`,
the two errors of the skippable-frame codec (invalid tag, payload too long for
the frame-size field), and an error returned by a collaborator (sink or
encoder), identified by an arbitrary code. -/
inductive Err where
  | chunkTooBig (len max : Nat)
  | resultTooBig (len max : Nat)
  | shortWrite (n : Int) (len : Nat)
  | tooManyFrames (n max : Nat)
  | invalidTag (tag : Nat)
  | frameTooBig (len max : Nat)
  | collaborator (code : Nat)
  deriving DecidableEq

/-- A non-nil Go `error`: a single error, or a `multierr` aggregate holding a
flat list of single errors. -/
inductive GoError where
  | single (e : Err)
  | multi (es : List Err)
  deriving DecidableEq

/-- The function `multierr.Errors`: the single errors an error value carries. -/
def Errors : Option GoError → List Err
  | none => []
  | some (.single e) => [e]
  | some (.multi es) => es

/-- The function `multierr.Append` of the library go.uber.org/multierr: `nil` is
neutral, and two non-nil errors give an aggregate that holds the errors of the
left one followed by the errors of the right one. -/
def Append (left right : Option GoError) : Option GoError :=
  match left, right with
  | none, r => r
  | some l, none => some l
  | some l, some r => some (.multi (Errors (some l) ++ Errors (some r)))

/-! ## Seek table entries and footer -/

/-- The type `SeekTableEntry`: the three `uint32` fields written per frame. -/
structure SeekTableEntry where
  CompressedSize : Nat
  DecompressedSize : Nat
  Checksum : Nat
  deriving DecidableEq

/-- The type `SeekTableDescriptor`. -/
structure SeekTableDescriptor where
  ChecksumFlag : Bool
  deriving DecidableEq

/-- The type `SeekTableFooter`. -/
structure SeekTableFooter where
  NumberOfFrames : Nat
  SeekTableDescriptor : SeekTableDescriptor
  SeekableMagicNumber : Nat
  deriving DecidableEq

/-- Modelled from the spec: the constant `seekableMagicNumber` (section 6,
`seekableMagicNumber : uint32 LE = 0x8F92EAB1`), declared outside `writer.go`. -/
def seekableMagicNumber : Nat := 0x8F92EAB1

/-- Modelled from the spec: the constant `seekableTag` (section 6, "tag = 0xE"),
declared outside `writer.go`. -/
def seekableTag : Nat := 0xE

/-- Modelled from the spec: the constant base of the skippable-frame magic
(section 6, `0x184D2A50 | tag`), declared outside `writer.go`. -/
def skippableFrameMagic : Nat := 0x184D2A50

/-- Modelled from the spec: `SeekTableEntry.marshalBinaryInline`, whose body is
not in `writer.go`. Section 6 lays an entry out as `compressedSize`,
`decompressedSize`, `checksum`, each `uint32` little-endian, 12 bytes. -/
def SeekTableEntry.marshalBinaryInline (e : SeekTableEntry) : Bytes :=
  putUint32 e.CompressedSize ++ putUint32 e.DecompressedSize ++ putUint32 e.Checksum

/-- Modelled from the spec: `SeekTableFooter.marshalBinaryInline`, whose body is
not in `writer.go`. Section 6: `numberOfFrames` as `uint32` little-endian, one
descriptor byte whose bit 7 is the checksum flag and whose other bits are zero,
then the magic number as `uint32` little-endian, 9 bytes. -/
def SeekTableFooter.marshalBinaryInline (f : SeekTableFooter) : Bytes :=
  putUint32 f.NumberOfFrames
    ++ [if f.SeekTableDescriptor.ChecksumFlag then 128 else 0]
    ++ putUint32 f.SeekableMagicNumber

/-- Modelled from the spec: `CreateSkippableFrame`, whose body is not in
`writer.go`. Section 4.1: fails with the invalid-tag error when `tag > 0xF`; an
empty payload yields an empty result; otherwise `magicBase | tag` (4 bytes,
little-endian), `len(payload)` (4 bytes, little-endian), then the payload.
Section 6 makes `frameSize` a `uint32` that is the length of the payload, so a
payload longer than `MaxUint32` bytes has no frame and the encoding fails. -/
def CreateSkippableFrame (tag : Nat) (payload : Bytes) : Except Err Bytes :=
  if tag > 0xF then .error (.invalidTag tag)
  else if payload.length = 0 then .ok []
  else if payload.length > MaxUint32 then .error (.frameTooBig payload.length MaxUint32)
  else .ok (putUint32 (skippableFrameMagic ||| tag) ++ putUint32 (uint32 payload.length) ++ payload)

/-! ## The writer -/

/-- A call made by the writer on one of its collaborators. -/
inductive Call where
  | EncodeAll (src : Bytes)
  | WriteFrame (p : Bytes)
  | WriteSeekTable (p : Bytes)
  | EncClose
  deriving DecidableEq

/-- The collaborators of `WriterImpl`, over a state `W` of the outside world:
`s.enc.EncodeAll(src, nil)`, `s.enc.Close()`, the two methods of the interface
`WEnvironment`, and the hash `xxhash.Sum64`. -/
structure Collaborators (W : Type) where
  EncodeAll : W → Bytes → Bytes × W
  EncClose : W → Option GoError × W
  WriteFrame : W → Bytes → (Int × Option GoError) × W
  WriteSeekTable : W → Bytes → (Int × Option GoError) × W
  Sum64 : Bytes → Nat

/-- The type `WriterImpl`. `once` is the done flag of `sync.Once`; `world` is
the state of the collaborators; `calls` logs the calls made on them, oldest
first. -/
structure WriterImpl (W : Type) where
  frameEntries : List SeekTableEntry
  once : Bool
  world : W
  calls : List Call

/-- The writer returned by `NewWriter`: no entries, `once` not yet used. -/
def NewWriter {W : Type} (w : W) : WriterImpl W :=
  { frameEntries := [], once := false, world := w, calls := [] }

/-- The method `WriterImpl.Write` (writer.go, lines 87-122). -/
def Write {W : Type} (c : Collaborators W) (s : WriterImpl W) (src : Bytes) :
    (Int × Option GoError) × WriterImpl W :=
  if src.length > MaxUint32 then
    ((0, some (.single (.chunkTooBig src.length MaxUint32))), s)
  else if src.length = 0 then
    ((0, none), s)
  else
    let enc := c.EncodeAll s.world src
    let dst := enc.1
    let s1 : WriterImpl W := { s with world := enc.2, calls := s.calls ++ [.EncodeAll src] }
    if dst.length > MaxUint32 then
      ((0, some (.single (.resultTooBig src.length MaxUint32))), s1)
    else
      let entry : SeekTableEntry :=
        { CompressedSize := uint32 dst.length
          DecompressedSize := uint32 src.length
          Checksum := uint32 (shl32shr32 (c.Sum64 src % 18446744073709551616)) }
      let s2 : WriterImpl W := { s1 with frameEntries := s1.frameEntries ++ [entry] }
      let r := c.WriteFrame s2.world dst
      let s3 : WriterImpl W := { s2 with world := r.2, calls := s2.calls ++ [.WriteFrame dst] }
      match r.1.2 with
      | some err => ((0, some err), s3)
      | none =>
        if r.1.1 ≠ (dst.length : Int) then
          ((0, some (.single (.shortWrite r.1.1 dst.length))), s3)
        else
          (((src.length : Int), none), s3)

/-- The loop `for i, e := range s.frameEntries` of `writeSeekTable`, started at
index `i`: entry `e` is marshalled into `seekTable[i*12 : (i+1)*12]`. -/
def marshalEntries : List SeekTableEntry → Nat → Bytes → Bytes
  | [], _, seekTable => seekTable
  | e :: es, i, seekTable =>
    marshalEntries es (i + 1) (putSlice seekTable (i * 12) e.marshalBinaryInline)

/-- The method `WriterImpl.writeSeekTable` (writer.go, lines 138-165). -/
def writeSeekTable {W : Type} (c : Collaborators W) (s : WriterImpl W) :
    Option GoError × WriterImpl W :=
  let seekTable := marshalEntries s.frameEntries 0 (make (s.frameEntries.length * 12 + 9))
  if s.frameEntries.length > MaxUint32 then
    (some (.single (.tooManyFrames s.frameEntries.length MaxUint32)), s)
  else
    let footer : SeekTableFooter :=
      { NumberOfFrames := uint32 s.frameEntries.length
        SeekTableDescriptor := { ChecksumFlag := true }
        SeekableMagicNumber := seekableMagicNumber }
    let seekTable := putSlice seekTable (s.frameEntries.length * 12) footer.marshalBinaryInline
    match CreateSkippableFrame seekableTag seekTable with
    | .error err => (some (.single err), s)
    | .ok seekTableBytes =>
      let r := c.WriteSeekTable s.world seekTableBytes
      (r.1.2, { s with world := r.2, calls := s.calls ++ [.WriteSeekTable seekTableBytes] })

/-- The method `WriterImpl.Close` (writer.go, lines 128-136): `once.Do` runs
`writeSeekTable` only if `once` has not been used, then the entries are dropped
and the encoder is closed. -/
def Close {W : Type} (c : Collaborators W) (s : WriterImpl W) :
    Option GoError × WriterImpl W :=
  let r1 : Option GoError × WriterImpl W :=
    if s.once then (none, s)
    else
      let t := writeSeekTable c s
      (Append none t.1, { t.2 with once := true })
  let s1 : WriterImpl W := { r1.2 with frameEntries := [] }
  let r2 := c.EncClose s1.world
  (Append r1.1 r2.1, { s1 with world := r2.2, calls := s1.calls ++ [.EncClose] })

/-! ## The decoder index -/

/-- Modelled from the spec: the type `env.FrameOffsetEntry`, declared outside
`pkg/decoder.go`. Section 3 (FrameDescriptor): `id` (int64), `compressedOffset`,
`decompOffset`, `compressedSize` (uint32), `decompressedSize` (uint32),
`checksum` (uint32). `pkg/decoder.go` names the fields `ID` and `DecompOffset`. -/
structure FrameOffsetEntry where
  ID : Int
  CompOffset : Nat
  DecompOffset : Nat
  CompSize : Nat
  DecompSize : Nat
  Checksum : Nat
  deriving DecidableEq

/-- Modelled from the spec: the order of the index (section 3, "ordered
container keyed by `decompOffset`"): an entry is less than another when its
`DecompOffset` is smaller. -/
def FrameOffsetEntry.Less (a b : FrameOffsetEntry) : Bool :=
  decide (a.DecompOffset < b.DecompOffset)

/-- Calling the iterator on the items in the order given until it returns
`false`; the iterator reads and updates the variables it captures, here `σ`. -/
def iterate {α σ : Type} (iter : α → σ → σ × Bool) : List α → σ → σ
  | [], st => st
  | x :: xs, st =>
    let r := iter x st
    if r.2 then iterate iter xs r.1 else r.1

/-- The ordered container behind `readerImpl.index` (a B-tree of the library
github.com/google/btree), as the list of its items in ascending order. -/
abbrev BTree (α : Type) := List α

/-- The method `Descend` of the B-tree: the iterator is called for every item
from the last to the first, until it returns `false`. -/
def BTree.Descend {α σ : Type} (t : BTree α) (iter : α → σ → σ × Bool) (st : σ) : σ :=
  iterate iter t.reverse st

/-- The method `DescendLessOrEqual` of the B-tree: the iterator is called for
every item within `[pivot, first]`, that is every item the pivot is not less
than, from the greatest down, until it returns `false`. -/
def BTree.DescendLessOrEqual {α σ : Type} (less : α → α → Bool) (t : BTree α) (pivot : α)
    (iter : α → σ → σ × Bool) (st : σ) : σ :=
  iterate iter (t.filter (fun x => !less pivot x)).reverse st

/-- The fields of `readerImpl` that `pkg/decoder.go` reads: `index`,
`endOffset` (int64) and `numFrames` (int64). -/
structure readerImpl where
  index : BTree FrameOffsetEntry
  endOffset : Int
  numFrames : Int

/-- The method `readerImpl.Size` (pkg/decoder.go, lines 60-62). -/
def readerImpl.Size (r : readerImpl) : Int := r.endOffset

/-- The method `readerImpl.NumFrames` (pkg/decoder.go, lines 64-66). -/
def readerImpl.NumFrames (r : readerImpl) : Int := r.numFrames

/-- The method `readerImpl.GetIndexByDecompOffset` (pkg/decoder.go, lines
68-78); `off` is a `uint64`. The iterator stores the item in `found` and stops. -/
def readerImpl.GetIndexByDecompOffset (r : readerImpl) (off : Nat) : Option FrameOffsetEntry :=
  if off ≥ uint64 r.endOffset then none
  else
    BTree.DescendLessOrEqual FrameOffsetEntry.Less r.index
      { ID := 0, CompOffset := 0, DecompOffset := off, CompSize := 0, DecompSize := 0,
        Checksum := 0 }
      (fun index _ => (some index, false)) none

/-- The method `readerImpl.GetIndexByID` (pkg/decoder.go, lines 80-93). The
iterator stops at the first item whose `ID` is `id` and stores it in `found`. -/
def readerImpl.GetIndexByID (r : readerImpl) (id : Int) : Option FrameOffsetEntry :=
  if id < 0 then none
  else
    BTree.Descend r.index
      (fun index found => if index.ID = id then (some index, false) else (found, true)) none

/-! ## Vocabulary of the statements -/

/-- The data-model invariant of the index (section 3). -/
def IndexInvariant (r : readerImpl) : Prop :=
  (∀ i (h : i < r.index.length), (r.index.get ⟨i, h⟩).ID = (i : Int)) ∧
  (∀ i (h : i < r.index.length),
    (r.index.get ⟨i, h⟩).DecompOffset = ((r.index.take i).map (·.DecompSize)).sum) ∧
  (∀ e ∈ r.index, 1 ≤ e.DecompSize) ∧
  r.endOffset = (((r.index.map (·.DecompSize)).sum : Nat) : Int)

/-- Entries laid out back to back from `start`. -/
def Contiguous : Nat → List FrameOffsetEntry → Prop
  | _, [] => True
  | start, e :: es => e.DecompOffset = start ∧ 1 ≤ e.DecompSize ∧ Contiguous (start + e.DecompSize) es

/-- The last item the pivot offset is not less than. -/
def lastLE (off : Nat) (l : List FrameOffsetEntry) : Option FrameOffsetEntry :=
  (l.filter (fun x => decide (x.DecompOffset ≤ off))).getLast?

/-- An index of three entries of sizes 5, 5 and 1, for examples. -/
def exampleReader : readerImpl :=
  { index :=
      [ { ID := 0, CompOffset := 0, DecompOffset := 0, CompSize := 14, DecompSize := 5, Checksum := 7 },
        { ID := 1, CompOffset := 14, DecompOffset := 5, CompSize := 14, DecompSize := 5, Checksum := 9 },
        { ID := 2, CompOffset := 28, DecompOffset := 10, CompSize := 10, DecompSize := 1, Checksum := 3 } ]
    endOffset := 11
    numFrames := 3 }

/-- The entry `Write` builds for the chunk `src` compressed to `dst`. -/
def entryOf {W : Type} (c : Collaborators W) (src dst : Bytes) : SeekTableEntry :=
  { CompressedSize := uint32 dst.length
    DecompressedSize := uint32 src.length
    Checksum := uint32 (shl32shr32 (c.Sum64 src % 18446744073709551616)) }

/-- An in-memory setting for examples: the sink `writerEnvImpl` over a byte
buffer (both methods append and report the full length), a stand-in codec that
stores the chunk behind one header byte, an encoder whose `Close` succeeds, and
a stand-in hash. -/
def bufferCollaborators : Collaborators Bytes :=
  { EncodeAll := fun w src => (40 :: src, w)
    EncClose := fun w => (none, w)
    WriteFrame := fun w p => (((p.length : Int), none), w ++ p)
    WriteSeekTable := fun w p => (((p.length : Int), none), w ++ p)
    Sum64 := fun src => src.sum }

/-- A setting whose sink refuses the seek table. -/
def brokenFooterCollaborators : Collaborators Bytes :=
  { bufferCollaborators with
    WriteSeekTable := fun w _ => ((0, some (.single (.collaborator 1))), w) }

/-- A setting whose sink refuses the seek table and whose encoder release fails. -/
def failingCollaborators : Collaborators Bytes :=
  { brokenFooterCollaborators with
    EncClose := fun w => (some (.single (.collaborator 2)), w) }

/-- Closing `m` times in a row. -/
def CloseN {W : Type} (c : Collaborators W) : Nat → WriterImpl W → WriterImpl W
  | 0, s => s
  | m + 1, s => CloseN c m (Close c s).2

/-- The number of `WriteSeekTable` calls in a log. -/
def countWriteSeekTable (calls : List Call) : Nat :=
  (calls.filter (fun x => match x with | .WriteSeekTable _ => true | _ => false)).length

/-- A setting whose sink takes only the first byte of a frame. -/
def shortFrameCollaborators : Collaborators Bytes :=
  { bufferCollaborators with
    WriteFrame := fun w p => ((1, none), w ++ p.take 1) }

/-- The seek-table frame of section 6 for the given entries, written out from
the layout: skippable-frame magic with tag 0xE, frame size `12n+9`, the entries
(12 bytes each), the number of frames, the descriptor byte, the seekable magic. -/
def seekTableFrame (entries : List SeekTableEntry) : Bytes :=
  [0x5E, 0x2A, 0x4D, 0x18] ++ putUint32 (12 * entries.length + 9)
    ++ entries.flatMap (fun e =>
        putUint32 e.CompressedSize ++ putUint32 e.DecompressedSize ++ putUint32 e.Checksum)
    ++ putUint32 entries.length ++ [0x80] ++ [0xB1, 0xEA, 0x92, 0x8F]

/-- The writer after `Write` of each chunk in turn, results dropped. -/
def WriteAll {W : Type} (c : Collaborators W) : WriterImpl W → List Bytes → WriterImpl W
  | s, [] => s
  | s, src :: rest => WriteAll c (Write c s src).2 rest

/-- The compressed frames `EncodeAll` returns for the chunks written in turn
from the world `w`, each frame then handed to `WriteFrame`. -/
def framesOf {W : Type} (c : Collaborators W) : W → List Bytes → List Bytes
  | _, [] => []
  | w, src :: rest =>
    (c.EncodeAll w src).1 ::
      framesOf c (c.WriteFrame (c.EncodeAll w src).2 (c.EncodeAll w src).1).2 rest

/-- The world after the chunks have been compressed and written in turn. -/
def worldAfter {W : Type} (c : Collaborators W) : W → List Bytes → W
  | w, [] => w
  | w, src :: rest =>
    worldAfter c (c.WriteFrame (c.EncodeAll w src).2 (c.EncodeAll w src).1).2 rest

/-- Every chunk is non-empty and at most `MaxUint32` bytes long. -/
def ChunksFit (chunks : List Bytes) : Prop :=
  ∀ src ∈ chunks, 1 ≤ src.length ∧ src.length ≤ MaxUint32

/-- Every compressed frame is at most `MaxUint32` bytes long. -/
def FramesFit {W : Type} (c : Collaborators W) (w : W) (chunks : List Bytes) : Prop :=
  ∀ dst ∈ framesOf c w chunks, dst.length ≤ MaxUint32

/-- The calls `Write` makes for the chunks and their frames. -/
def writeCalls : List Bytes → List Bytes → List Call
  | src :: rest, dst :: more => .EncodeAll src :: .WriteFrame dst :: writeCalls rest more
  | _, _ => []

/-- A writer that holds 357913941 entries and has not been closed: its footer
payload of `12 * 357913941 + 9 = MaxUint32 + 6` bytes is the first that does not
fit the frame-size field. -/
def bigWriter : WriterImpl Bytes :=
  { frameEntries := List.replicate 357913941
      { CompressedSize := 1, DecompressedSize := 1, Checksum := 0 }
    once := false
    world := []
    calls := [] }

/-- A writer that holds `MaxUint32 + 1` entries and has not been closed. -/
def fullWriter : WriterImpl Bytes :=
  { frameEntries := List.replicate 4294967296
      { CompressedSize := 1, DecompressedSize := 1, Checksum := 0 }
    once := false
    world := []
    calls := [] }

/-- The results of `Write` of each chunk in turn. -/
def WriteResults {W : Type} (c : Collaborators W) :
    WriterImpl W → List Bytes → List (Int × Option GoError)
  | _, [] => []
  | s, src :: rest => (Write c s src).1 :: WriteResults c (Write c s src).2 rest

/-- The sink accepts every write in full: both methods of `WEnvironment` return
the length of what they were given and a nil error. -/
def SinkAccepts {W : Type} (c : Collaborators W) : Prop :=
  (∀ w p, (c.WriteFrame w p).1 = ((p.length : Int), none)) ∧
  (∀ w p, (c.WriteSeekTable w p).1 = ((p.length : Int), none))

/-- The byte slices handed to the sink, in call order. -/
def sinkWrites : List Call → List Bytes
  | [] => []
  | .WriteFrame p :: cs => p :: sinkWrites cs
  | .WriteSeekTable p :: cs => p :: sinkWrites cs
  | _ :: cs => sinkWrites cs

/-- Modelled from the spec: reading `n` entries of the seek table (section 6:
`compressedSize`, `decompressedSize`, `checksum`, each `uint32` little-endian,
12 bytes per entry). The reader is not in the sources. -/
def readEntries : Nat → Bytes → List SeekTableEntry
  | 0, _ => []
  | n + 1, b =>
    { CompressedSize := getUint32 b
      DecompressedSize := getUint32 (b.drop 4)
      Checksum := getUint32 (b.drop 8) } :: readEntries n (b.drop 12)

/-- Modelled from the spec: the tag `decode` of the skippable-frame codec
extracts from the magic (section 4.1): the low four bits. The decoder is not in
the sources. -/
def SkippableFrameTag (frame : Bytes) : Nat := getUint32 frame % 16

/-- Modelled from the spec: `decode` of the skippable-frame codec (sections 4.1
and 8), which is not in the sources. An empty input is a no-op and gives no
payload. Otherwise it checks that the 4-byte magic has the base pattern
`0x184D2A5_`, reads the declared length and returns the payload; it fails when
fewer bytes are available than declared or the magic base does not match. -/
def DecodeSkippableFrame (frame : Bytes) : Option Bytes :=
  if frame.length = 0 then some []
  else if frame.length < 8 then none
  else if getUint32 frame / 16 ≠ skippableFrameMagic / 16 then none
  else if (frame.drop 8).length < getUint32 (frame.drop 4) then none
  else some ((frame.drop 8).take (getUint32 (frame.drop 4)))

/-- Modelled from the spec: reading the seek table from the end of a stream
(sections 4.4 and 6). The last 9 bytes are `numberOfFrames`, the descriptor
byte and the seekable magic; the trailing skippable frame is the
`12 * numberOfFrames + 17` bytes that end the stream. The magic must match, the
checksum flag (bit 7 of the descriptor, the other bits being ignored) must be
set since every entry has 12 bytes, the frame must decode, its tag must be 0xE
and its declared size `12 * numberOfFrames + 9`; the entries are then read from
the payload. The reader is not in the sources. -/
def readSeekTable (stream : Bytes) : Option (List SeekTableEntry) :=
  if stream.length < 17 then none
  else if getUint32 ((stream.drop (stream.length - 9)).drop 5) ≠ seekableMagicNumber then none
  else if (stream.drop (stream.length - 9)).getD 4 0 / 128 % 2 ≠ 1 then none
  else if stream.length < 12 * getUint32 (stream.drop (stream.length - 9)) + 17 then none
  else
    match DecodeSkippableFrame (stream.drop
      (stream.length - (12 * getUint32 (stream.drop (stream.length - 9)) + 17))) with
    | none => none
    | some payload =>
      if SkippableFrameTag (stream.drop
          (stream.length - (12 * getUint32 (stream.drop (stream.length - 9)) + 17)))
            ≠ seekableTag then none
      else if payload.length ≠ 12 * getUint32 (stream.drop (stream.length - 9)) + 9 then none
      else some (readEntries (getUint32 (stream.drop (stream.length - 9))) payload)

/-- Cutting a stream into consecutive frames of the given sizes. -/
def splitFrames : List Nat → Bytes → List Bytes
  | [], _ => []
  | n :: ns, b => b.take n :: splitFrames ns (b.drop n)

/-- A setting whose codec pads every chunk with `MaxUint32 + 1` zero bytes; the
sink accepts every write in full. -/
def paddingCollaborators : Collaborators Bytes :=
  { bufferCollaborators with
    EncodeAll := fun w src => (src ++ List.replicate 4294967296 0, w) }

/-- The inverse of the padding codec: the padding is cut off. -/
def unpad (dst : Bytes) : Bytes := dst.take (dst.length - 4294967296)

/-- A chunk of `MaxUint32 + 1` zero bytes. -/
def hugeChunk : Bytes := List.replicate 4294967296 0

/-- A setting whose sink takes only the first byte of the seek table and
reports no error. -/
def shortFooterCollaborators : Collaborators Bytes :=
  { bufferCollaborators with
    WriteSeekTable := fun w p => ((1, none), w ++ p.take 1) }

/-- The method `readerImpl.GetIndexByID` with a counter added to the variables
its iterator captures: the counter goes up by one each time the iterator is
called on an entry of the index. The first component is the entry found, the
second the number of entries visited. -/
def readerImpl.GetIndexByIDVisits (r : readerImpl) (id : Int) :
    Option FrameOffsetEntry × Nat :=
  if id < 0 then (none, 0)
  else
    BTree.Descend r.index
      (fun index st =>
        if index.ID = id then ((some index, st.2 + 1), false) else ((st.1, st.2 + 1), true))
      (none, 0)

/-- An index of `n` one-byte frames with the ids `0..n-1`. -/
def denseReader (n : Nat) : readerImpl :=
  { index := (List.range n).map (fun (i : Nat) =>
      { ID := (i : Int), CompOffset := i, DecompOffset := i, CompSize := 1, DecompSize := 1,
        Checksum := 0 })
    endOffset := (n : Int)
    numFrames := (n : Int) }

/-- The decompressed offsets the reader reconstructs from the entries in order:
running sums of `DecompressedSize`, starting at `start`. -/
def offsetsFrom : Nat → List SeekTableEntry → List Nat
  | _, [] => []
  | start, e :: es => start :: offsetsFrom (start + e.DecompressedSize) es

/-- The chunks whose `Write` appended an entry, in write order: the chunks of
the entries. -/
def recordedChunks {W : Type} (c : Collaborators W) : WriterImpl W → List Bytes → List Bytes
  | _, [] => []
  | s, src :: rest =>
    (if (Write c s src).2.frameEntries.length = s.frameEntries.length + 1 then [src] else [])
      ++ recordedChunks c (Write c s src).2 rest

/-- The byte slices handed to `WriteFrame`, in call order. -/
def frameWrites : List Call → List Bytes
  | [] => []
  | .WriteFrame p :: cs => p :: frameWrites cs
  | _ :: cs => frameWrites cs

/-- A sink that appends, its stored bytes read off the world by `content`:
`WriteFrame` stores the first `n` bytes of what it is given, `n` being the count
it returns, and the encoder leaves the stored bytes alone. -/
def SinkAppends {W : Type} (c : Collaborators W) (content : W → Bytes) : Prop :=
  (∀ w p, content (c.WriteFrame w p).2
    = content w ++ p.take ((c.WriteFrame w p).1.1).toNat) ∧
  (∀ w src, content (c.EncodeAll w src).2 = content w)

/-! ## Lemmas and theorems -/

/-! ### Decoder: lookup by offset and by id -/

theorem iterate_first {α : Type} (l : List α) :
    iterate (fun (index : α) (_ : Option α) => (some index, false)) l none = l.head? := by
  cases l <;> simp [iterate]

theorem descendLE_eq (t : BTree FrameOffsetEntry) (off : Nat) :
    BTree.DescendLessOrEqual FrameOffsetEntry.Less t
      { ID := 0, CompOffset := 0, DecompOffset := off, CompSize := 0, DecompSize := 0,
        Checksum := 0 }
      (fun index _ => (some index, false)) none = lastLE off t := by
  unfold BTree.DescendLessOrEqual lastLE
  rw [iterate_first, List.head?_reverse]
  congr 1
  apply List.filter_congr
  intro x _
  by_cases hx : x.DecompOffset ≤ off
  · have : ¬ off < x.DecompOffset := by omega
    simp [FrameOffsetEntry.Less, hx, this]
  · have : off < x.DecompOffset := by omega
    simp [FrameOffsetEntry.Less, hx, this]

theorem contiguous_of_take (l : List FrameOffsetEntry) (start : Nat)
    (hoff : ∀ i (h : i < l.length),
      (l.get ⟨i, h⟩).DecompOffset = start + ((l.take i).map (·.DecompSize)).sum)
    (hsz : ∀ e ∈ l, 1 ≤ e.DecompSize) : Contiguous start l := by
  induction l generalizing start with
  | nil => trivial
  | cons e es ih =>
    refine ⟨?_, hsz e (by simp), ih _ ?_ ?_⟩
    · simpa using hoff 0 (by simp)
    · intro i h
      have := hoff (i + 1) (by simpa using h)
      simp at this
      simp [this]; omega
    · intro x hx; exact hsz x (by simp [hx])

theorem contiguous_lb {start : Nat} {l : List FrameOffsetEntry} (h : Contiguous start l) :
    ∀ x ∈ l, start ≤ x.DecompOffset := by
  induction l generalizing start with
  | nil => simp
  | cons e es ih =>
    obtain ⟨h1, h2, h3⟩ := h
    intro x hx
    rcases List.mem_cons.mp hx with rfl | hx
    · omega
    · have := ih h3 x hx; omega

theorem lastLE_none_of_lt {off : Nat} {l : List FrameOffsetEntry}
    (h : ∀ x ∈ l, off < x.DecompOffset) : lastLE off l = none := by
  unfold lastLE
  have : l.filter (fun x => decide (x.DecompOffset ≤ off)) = [] := by
    rw [List.filter_eq_nil_iff]
    intro x hx
    have := h x hx
    simp; omega
  simp [this]

theorem lastLE_cons (off : Nat) (e : FrameOffsetEntry) (es : List FrameOffsetEntry)
    (he : e.DecompOffset ≤ off) :
    lastLE off (e :: es) = match lastLE off es with | some x => some x | none => some e := by
  unfold lastLE
  rw [List.filter_cons_of_pos (by simpa using he)]
  cases h : es.filter (fun x => decide (x.DecompOffset ≤ off)) with
  | nil => simp
  | cons y ys =>
    rw [List.getLast?_cons_cons, List.getLast?_eq_getLast (y :: ys) (by simp)]

/-- Within a contiguous layout, an entry whose range holds `off` is the one found. -/
theorem lastLE_of_mem {start off : Nat} {l : List FrameOffsetEntry} (h : Contiguous start l)
    (x : FrameOffsetEntry) (hx : x ∈ l) (h1 : x.DecompOffset ≤ off)
    (h2 : off < x.DecompOffset + x.DecompSize) : lastLE off l = some x := by
  induction l generalizing start with
  | nil => simp at hx
  | cons e es ih =>
    obtain ⟨e1, e2, e3⟩ := h
    rcases List.mem_cons.mp hx with rfl | hx
    · rw [lastLE_cons off _ es h1, lastLE_none_of_lt]
      intro y hy
      have := contiguous_lb e3 y hy
      omega
    · have hlb := contiguous_lb e3 x hx
      rw [lastLE_cons off e es (by omega), ih e3 hx]

/-- Within a contiguous layout, every offset in range lies in some entry. -/
theorem exists_mem_range {start off : Nat} {l : List FrameOffsetEntry} (h : Contiguous start l)
    (h1 : start ≤ off) (h2 : off < start + (l.map (·.DecompSize)).sum) :
    ∃ x ∈ l, x.DecompOffset ≤ off ∧ off < x.DecompOffset + x.DecompSize := by
  induction l generalizing start with
  | nil => simp at h2; omega
  | cons e es ih =>
    obtain ⟨e1, e2, e3⟩ := h
    by_cases hc : off < start + e.DecompSize
    · exact ⟨e, by simp, by omega, by omega⟩
    · have : off < start + e.DecompSize + (es.map (·.DecompSize)).sum := by
        simp at h2; omega
      obtain ⟨x, hx, hx1, hx2⟩ := ih e3 (by omega) this
      exact ⟨x, by simp [hx], hx1, hx2⟩

theorem lastLE_greatest {off : Nat} {l : List FrameOffsetEntry} {start : Nat}
    (h : Contiguous start l) {e : FrameOffsetEntry} (he : lastLE off l = some e) :
    ∀ x ∈ l, x.DecompOffset ≤ off → x.DecompOffset ≤ e.DecompOffset := by
  induction l generalizing start with
  | nil => simp
  | cons a as ih =>
    obtain ⟨e1, e2, e3⟩ := h
    intro x hx hxo
    have ha : a.DecompOffset ≤ off := by
      rcases List.mem_cons.mp hx with rfl | hx
      · exact hxo
      · have := contiguous_lb e3 x hx; omega
    rw [lastLE_cons off a as ha] at he
    cases hl : lastLE off as with
    | none =>
      rw [hl] at he
      simp at he
      subst he
      rcases List.mem_cons.mp hx with rfl | hx
      · exact le_refl _
      · exfalso
        unfold lastLE at hl
        rw [List.getLast?_eq_none_iff, List.filter_eq_nil_iff] at hl
        exact hl x hx (by simpa using hxo)
    | some y =>
      rw [hl] at he
      simp at he
      subst he
      rcases List.mem_cons.mp hx with rfl | hx
      · have hy : y ∈ as := by
          unfold lastLE at hl
          exact (List.mem_filter.mp (List.mem_of_getLast?_eq_some hl)).1
        have := contiguous_lb e3 y hy
        omega
      · exact ih e3 hl x hx hxo

theorem uint64_of_nonneg (x : Int) (h0 : 0 ≤ x) (h1 : x < 9223372036854775808) :
    ((uint64 x : Nat) : Int) = x := by
  unfold uint64
  rw [Int.toNat_of_nonneg (Int.emod_nonneg _ (by norm_num))]
  exact Int.emod_eq_of_lt h0 (by omega)

/-- C2. Offset lookup. For an index that satisfies the data-model invariant
(ids `0..n-1`, the `DecompOffset` of entry `i` is the sum of the `DecompSize` of
the entries before it, every `DecompSize` is at least 1, `endOffset` is the
total decompressed size, which fits an `int64`): for `off < Size()`,
`GetIndexByDecompOffset off` returns an entry `e` of the index with
`e.DecompOffset ≤ off < e.DecompOffset + e.DecompSize`; `e` has the greatest
`DecompOffset ≤ off` and is the only entry whose range holds `off`. For
`off ≥ Size()`, and always on an empty index, the result is nil. -/
theorem GetIndexByDecompOffset_lookup (r : readerImpl) (off : Nat)
    (hinv : IndexInvariant r) (hint64 : r.endOffset < 9223372036854775808) :
    ((off : Int) < r.Size →
      ∃ e, r.GetIndexByDecompOffset off = some e ∧ e ∈ r.index ∧
        e.DecompOffset ≤ off ∧ off < e.DecompOffset + e.DecompSize ∧
        (∀ x ∈ r.index, x.DecompOffset ≤ off → x.DecompOffset ≤ e.DecompOffset) ∧
        (∀ x ∈ r.index, x.DecompOffset ≤ off → off < x.DecompOffset + x.DecompSize → x = e)) ∧
    (r.Size ≤ (off : Int) → r.GetIndexByDecompOffset off = none) ∧
    (r.index = [] → r.GetIndexByDecompOffset off = none) := by
  obtain ⟨_, hoff, hsz, hend⟩ := hinv
  have hcont : Contiguous 0 r.index :=
    contiguous_of_take r.index 0 (by intro i h; simpa using hoff i h) hsz
  have hu : ((uint64 r.endOffset : Nat) : Int) = r.endOffset :=
    uint64_of_nonneg _ (by rw [hend]; exact Int.ofNat_nonneg _) hint64
  have hnone : r.Size ≤ (off : Int) → r.GetIndexByDecompOffset off = none := by
    intro h
    unfold readerImpl.Size at h
    unfold readerImpl.GetIndexByDecompOffset
    rw [if_pos]
    show uint64 r.endOffset ≤ off
    omega
  refine ⟨?_, hnone, ?_⟩
  · intro hlt
    unfold readerImpl.Size at hlt
    have hlt2 : off < (r.index.map (·.DecompSize)).sum := by omega
    obtain ⟨e, he, he1, he2⟩ := exists_mem_range hcont (Nat.zero_le _) (by simpa using hlt2)
    have hfound : r.GetIndexByDecompOffset off = some e := by
      unfold readerImpl.GetIndexByDecompOffset
      rw [if_neg (by show ¬ uint64 r.endOffset ≤ off; omega), descendLE_eq]
      exact lastLE_of_mem hcont e he he1 he2
    have hl : lastLE off r.index = some e := lastLE_of_mem hcont e he he1 he2
    refine ⟨e, hfound, he, he1, he2, lastLE_greatest hcont hl, ?_⟩
    intro x hx hx1 hx2
    have := lastLE_of_mem hcont x hx hx1 hx2
    rw [hl] at this
    exact (Option.some.inj this).symm
  · intro hnil
    apply hnone
    unfold readerImpl.Size
    rw [hend, hnil]
    simp

theorem exampleReader_invariant : IndexInvariant exampleReader := by
  unfold IndexInvariant exampleReader
  decide

/-- C2 at a concrete input: a three-entry index of total size 11. -/
theorem GetIndexByDecompOffset_lookup_witness :
    IndexInvariant exampleReader ∧
    (∃ e, exampleReader.GetIndexByDecompOffset 7 = some e ∧ e ∈ exampleReader.index ∧
      e.DecompOffset ≤ 7 ∧ 7 < e.DecompOffset + e.DecompSize) ∧
    exampleReader.GetIndexByDecompOffset 11 = none := by
  have h7 := (GetIndexByDecompOffset_lookup exampleReader 7 exampleReader_invariant
    (by decide)).1 (by decide)
  have h11 := (GetIndexByDecompOffset_lookup exampleReader 11 exampleReader_invariant
    (by decide)).2.1 (by decide)
  obtain ⟨e, h1, h2, h3, h4, _⟩ := h7
  exact ⟨exampleReader_invariant, ⟨e, h1, h2, h3, h4⟩, h11⟩

theorem iterate_find {α : Type} (p : α → Bool) (l : List α) (st : Option α) :
    iterate (fun (index : α) (found : Option α) =>
      if p index = true then (some index, false) else (found, true)) l st
      = match l.find? p with | some x => some x | none => st := by
  induction l generalizing st with
  | nil => simp [iterate]
  | cons a as ih =>
    by_cases h : p a = true
    · simp [iterate, h]
    · simp [iterate, h, ih]

theorem GetIndexByID_eq_find (r : readerImpl) (id : Int) (h : 0 ≤ id) :
    r.GetIndexByID id = r.index.reverse.find? (fun x => decide (x.ID = id)) := by
  unfold readerImpl.GetIndexByID BTree.Descend
  rw [if_neg (by omega)]
  have := iterate_find (fun x : FrameOffsetEntry => decide (x.ID = id)) r.index.reverse none
  simp only [decide_eq_true_eq] at this
  rw [this]
  cases List.find? (fun x => decide (x.ID = id)) r.index.reverse <;> rfl

/-- C3. Id lookup. Let `entries` be the entries in append order, entry `i`
carrying the id `i`, and let the offset-ordered index hold exactly these entries
(`NumFrames()` being their number). Then `GetIndexByID i` returns `entries[i]`
for every `i` with `0 ≤ i < n`, and nil for every `id < 0` and every
`id ≥ NumFrames()`: the scan gives what positional access gives. -/
theorem GetIndexByID_lookup (r : readerImpl) (entries : List FrameOffsetEntry)
    (hperm : r.index.Perm entries)
    (hids : ∀ i (h : i < entries.length), (entries.get ⟨i, h⟩).ID = (i : Int))
    (hn : r.NumFrames = (entries.length : Int)) :
    (∀ i (h : i < entries.length), r.GetIndexByID (i : Int) = some (entries.get ⟨i, h⟩)) ∧
    (∀ id : Int, id < 0 ∨ r.NumFrames ≤ id → r.GetIndexByID id = none) := by
  constructor
  · intro i h
    rw [GetIndexByID_eq_find r i (Int.ofNat_nonneg _)]
    have hmem : entries.get ⟨i, h⟩ ∈ r.index.reverse :=
      List.mem_reverse.mpr (hperm.symm.subset (List.get_mem _ _ _))
    cases hf : r.index.reverse.find? (fun x => decide (x.ID = (i : Int))) with
    | none =>
      rw [List.find?_eq_none] at hf
      have h1 := hf _ hmem
      rw [decide_eq_true_eq] at h1
      exact absurd (hids i h) h1
    | some x =>
      have hx : x.ID = (i : Int) := by simpa using List.find?_some hf
      have hxm : x ∈ entries := hperm.subset (List.mem_reverse.mp (List.mem_of_find?_eq_some hf))
      obtain ⟨⟨j, hj⟩, rfl⟩ := List.mem_iff_get.mp hxm
      have : j = i := by
        have := hids j hj
        rw [this] at hx
        exact_mod_cast hx
      subst this
      rfl
  · intro id hid
    rcases hid with hneg | hge
    · unfold readerImpl.GetIndexByID
      rw [if_pos hneg]
    · by_cases hneg : id < 0
      · unfold readerImpl.GetIndexByID
        rw [if_pos hneg]
      · rw [GetIndexByID_eq_find r id (by omega), List.find?_eq_none]
        intro x hx
        have hxm : x ∈ entries := hperm.subset (List.mem_reverse.mp hx)
        obtain ⟨⟨j, hj⟩, rfl⟩ := List.mem_iff_get.mp hxm
        rw [hids j hj]
        rw [hn] at hge
        simp
        omega

/-- C3 at a concrete input: a three-entry index. -/
theorem GetIndexByID_lookup_witness :
    exampleReader.GetIndexByID 1 = exampleReader.index[1]? ∧
    exampleReader.GetIndexByID 3 = none ∧ exampleReader.GetIndexByID (-1) = none := by
  have h := GetIndexByID_lookup exampleReader exampleReader.index (List.Perm.refl _)
    (by decide) rfl
  exact ⟨h.1 1 (by decide), h.2 3 (Or.inr (by decide)), h.2 (-1) (Or.inl (by decide))⟩

/-! ### Writer: `Write` -/

theorem uint32_of_le {n : Nat} (h : n ≤ MaxUint32) : uint32 n = n := by
  unfold uint32; unfold MaxUint32 at h; omega

theorem Write_state_of_fits {W : Type} (c : Collaborators W) (s : WriterImpl W) (src : Bytes)
    (h1 : 1 ≤ src.length) (h2 : src.length ≤ MaxUint32)
    (h3 : (c.EncodeAll s.world src).1.length ≤ MaxUint32) :
    (Write c s src).2 =
      { frameEntries := s.frameEntries ++ [entryOf c src (c.EncodeAll s.world src).1]
        once := s.once
        world := (c.WriteFrame (c.EncodeAll s.world src).2 (c.EncodeAll s.world src).1).2
        calls := s.calls ++ [.EncodeAll src, .WriteFrame (c.EncodeAll s.world src).1] } := by
  unfold Write
  rw [if_neg (by omega), if_neg (by omega)]
  simp only []
  rw [if_neg (by omega)]
  simp only [entryOf, List.append_assoc, List.singleton_append]
  split
  · rfl
  · split <;> rfl

theorem Write_result_of_fits {W : Type} (c : Collaborators W) (s : WriterImpl W) (src : Bytes)
    (h1 : 1 ≤ src.length) (h2 : src.length ≤ MaxUint32)
    (h3 : (c.EncodeAll s.world src).1.length ≤ MaxUint32) :
    (Write c s src).1 =
      match (c.WriteFrame (c.EncodeAll s.world src).2 (c.EncodeAll s.world src).1).1.2 with
      | some err => (0, some err)
      | none =>
        if (c.WriteFrame (c.EncodeAll s.world src).2 (c.EncodeAll s.world src).1).1.1
            ≠ ((c.EncodeAll s.world src).1.length : Int) then
          (0, some (.single (.shortWrite
            (c.WriteFrame (c.EncodeAll s.world src).2 (c.EncodeAll s.world src).1).1.1
            (c.EncodeAll s.world src).1.length)))
        else ((src.length : Int), none) := by
  unfold Write
  rw [if_neg (by omega), if_neg (by omega)]
  simp only []
  rw [if_neg (by omega)]
  cases he : (c.WriteFrame (c.EncodeAll s.world src).2 (c.EncodeAll s.world src).1).1.2 with
  | some err => rfl
  | none =>
    simp only []
    split <;> rfl

/-- C5. One frame per `Write`, input count returned. For a chunk `src` with
`1 ≤ len(src) ≤ MaxUint32` whose compressed form `dst` has
`len(dst) ≤ MaxUint32`, when the sink accepts all of `dst`: `Write` returns
`(len(src), nil)`; the calls it makes are exactly one `EncodeAll` on the whole
chunk and then one `WriteFrame` with exactly `dst`; and exactly one entry is
appended, with `CompressedSize = len(dst)` and `DecompressedSize = len(src)`,
neither truncated by the `uint32` conversion. -/
theorem Write_one_frame {W : Type} (c : Collaborators W) (s : WriterImpl W) (src : Bytes)
    (h1 : 1 ≤ src.length) (h2 : src.length ≤ MaxUint32)
    (h3 : (c.EncodeAll s.world src).1.length ≤ MaxUint32)
    (h4 : (c.WriteFrame (c.EncodeAll s.world src).2 (c.EncodeAll s.world src).1).1
      = (((c.EncodeAll s.world src).1.length : Int), none)) :
    (Write c s src).1 = ((src.length : Int), none) ∧
    (Write c s src).2.calls
      = s.calls ++ [.EncodeAll src, .WriteFrame (c.EncodeAll s.world src).1] ∧
    (Write c s src).2.frameEntries
      = s.frameEntries ++
        [{ CompressedSize := (c.EncodeAll s.world src).1.length
           DecompressedSize := src.length
           Checksum := uint32 (shl32shr32 (c.Sum64 src % 18446744073709551616)) }] := by
  rw [Write_result_of_fits c s src h1 h2 h3, Write_state_of_fits c s src h1 h2 h3, h4]
  simp [entryOf, uint32_of_le h2, uint32_of_le h3]

/-- C5 at a concrete input: "test1" written to an in-memory sink. -/
theorem Write_one_frame_witness :
    (Write bufferCollaborators (NewWriter []) [116, 101, 115, 116, 49]).1 = (5, none) ∧
    (Write bufferCollaborators (NewWriter []) [116, 101, 115, 116, 49]).2.calls
      = [.EncodeAll [116, 101, 115, 116, 49], .WriteFrame [40, 116, 101, 115, 116, 49]] ∧
    (Write bufferCollaborators (NewWriter []) [116, 101, 115, 116, 49]).2.frameEntries
      = [{ CompressedSize := 6, DecompressedSize := 5, Checksum := 497 }] := by
  have h := Write_one_frame bufferCollaborators (NewWriter []) [116, 101, 115, 116, 49]
    (by decide) (by decide) (by decide) rfl
  exact ⟨h.1, h.2.1, h.2.2.trans (by decide)⟩

/-- C10. Sink failure in `Write`. For a non-empty chunk within the size limits,
if `WriteFrame` returns an error, or returns no error and a count different
from the compressed length, then `Write` returns 0 bytes and a non-nil error:
the sink's error unchanged in the first case, the short-write error in the
second; and the index has grown by exactly the entry of the attempted frame. -/
theorem Write_sink_failure {W : Type} (c : Collaborators W) (s : WriterImpl W) (src : Bytes)
    (h1 : 1 ≤ src.length) (h2 : src.length ≤ MaxUint32)
    (h3 : (c.EncodeAll s.world src).1.length ≤ MaxUint32)
    (hfail : (c.WriteFrame (c.EncodeAll s.world src).2 (c.EncodeAll s.world src).1).1.2 ≠ none ∨
      ((c.WriteFrame (c.EncodeAll s.world src).2 (c.EncodeAll s.world src).1).1.2 = none ∧
       (c.WriteFrame (c.EncodeAll s.world src).2 (c.EncodeAll s.world src).1).1.1
         ≠ ((c.EncodeAll s.world src).1.length : Int))) :
    (Write c s src).1.1 = 0 ∧ (Write c s src).1.2 ≠ none ∧
    (∀ err, (c.WriteFrame (c.EncodeAll s.world src).2 (c.EncodeAll s.world src).1).1.2 = some err →
      (Write c s src).1.2 = some err) ∧
    ((c.WriteFrame (c.EncodeAll s.world src).2 (c.EncodeAll s.world src).1).1.2 = none →
      (Write c s src).1.2 = some (.single (.shortWrite
        (c.WriteFrame (c.EncodeAll s.world src).2 (c.EncodeAll s.world src).1).1.1
        (c.EncodeAll s.world src).1.length))) ∧
    (Write c s src).2.frameEntries
      = s.frameEntries ++
        [{ CompressedSize := (c.EncodeAll s.world src).1.length
           DecompressedSize := src.length
           Checksum := uint32 (shl32shr32 (c.Sum64 src % 18446744073709551616)) }] := by
  rw [Write_result_of_fits c s src h1 h2 h3, Write_state_of_fits c s src h1 h2 h3]
  cases he : (c.WriteFrame (c.EncodeAll s.world src).2 (c.EncodeAll s.world src).1).1.2 with
  | some err => simp [entryOf, uint32_of_le h2, uint32_of_le h3]
  | none =>
    have hne : (c.WriteFrame (c.EncodeAll s.world src).2 (c.EncodeAll s.world src).1).1.1
         ≠ ((c.EncodeAll s.world src).1.length : Int) := by
      rcases hfail with h | h
      · exact absurd he h
      · exact h.2
    simp [entryOf, uint32_of_le h2, uint32_of_le h3, hne]

/-- C10 at a concrete input: the sink takes one byte of a four-byte frame. -/
theorem Write_sink_failure_witness :
    (Write shortFrameCollaborators (NewWriter []) [1, 2, 3]).1
      = (0, some (.single (.shortWrite 1 4))) ∧
    (Write shortFrameCollaborators (NewWriter []) [1, 2, 3]).2.frameEntries
      = [{ CompressedSize := 4, DecompressedSize := 3, Checksum := 6 }] := by
  have h := Write_sink_failure shortFrameCollaborators (NewWriter []) [1, 2, 3]
    (by decide) (by decide) (by decide) (Or.inr ⟨rfl, by decide⟩)
  exact ⟨Prod.ext h.1 (h.2.2.2.1 rfl), h.2.2.2.2⟩

/-- C6 fails as stated: on a writer that has been closed, `Write` of a one-byte
chunk returns `(1, nil)`, appends an entry and hands the frame to the sink. -/
theorem Write_after_Close_accepted :
    (Write bufferCollaborators (Close bufferCollaborators (NewWriter [])).2 [7]).1 = (1, none) ∧
    (Write bufferCollaborators (Close bufferCollaborators (NewWriter [])).2 [7]).2.frameEntries
      = [{ CompressedSize := 2, DecompressedSize := 1, Checksum := 7 }] ∧
    Call.WriteFrame [40, 7]
      ∈ (Write bufferCollaborators (Close bufferCollaborators (NewWriter [])).2 [7]).2.calls := by
  decide

/-- C6 as amended. `Write` never reads the `once` flag, so a closed writer
accepts writes as an open one does. For every writer state with the flag set:
the result of `Write` is the result on the same state with the flag cleared; an
empty chunk returns `(0, nil)` and changes nothing; a non-empty chunk within the
size limits is compressed once, one entry is appended, the frame is handed to
`WriteFrame`, and the call returns `(len(src), nil)` when the sink accepts it
in full. -/
theorem Write_on_closed {W : Type} (c : Collaborators W) (s : WriterImpl W) (src : Bytes) :
    (Write c { s with once := true } src).1 = (Write c { s with once := false } src).1 ∧
    (src.length = 0 →
      Write c { s with once := true } src = ((0, none), { s with once := true })) ∧
    (1 ≤ src.length → src.length ≤ MaxUint32 →
      (c.EncodeAll s.world src).1.length ≤ MaxUint32 →
        (Write c { s with once := true } src).2.frameEntries
          = s.frameEntries ++ [entryOf c src (c.EncodeAll s.world src).1] ∧
        (Write c { s with once := true } src).2.calls
          = s.calls ++ [.EncodeAll src, .WriteFrame (c.EncodeAll s.world src).1] ∧
        ((c.WriteFrame (c.EncodeAll s.world src).2 (c.EncodeAll s.world src).1).1
            = (((c.EncodeAll s.world src).1.length : Int), none) →
          (Write c { s with once := true } src).1 = ((src.length : Int), none))) := by
  refine ⟨?_, ?_, ?_⟩
  · unfold Write
    split
    · rfl
    · split
      · rfl
      · simp only []
        split
        · rfl
        · split
          · rfl
          · split <;> rfl
  · intro h0
    unfold Write
    rw [if_neg (by omega), if_pos h0]
  · intro h1 h2 h3
    refine ⟨?_, ?_, ?_⟩
    · rw [Write_state_of_fits c { s with once := true } src h1 h2 h3]
    · rw [Write_state_of_fits c { s with once := true } src h1 h2 h3]
    · intro h4
      rw [Write_result_of_fits c { s with once := true } src h1 h2 h3]
      simp only []
      rw [h4]
      simp

/-! ### Writer: `Close` and the footer -/

theorem writeSeekTable_of_gt {W : Type} (c : Collaborators W) (s : WriterImpl W)
    (h : s.frameEntries.length > MaxUint32) :
    writeSeekTable c s
      = (some (.single (.tooManyFrames s.frameEntries.length MaxUint32)), s) := by
  unfold writeSeekTable
  simp only []
  rw [if_pos h]

theorem Close_of_closed {W : Type} (c : Collaborators W) (s : WriterImpl W)
    (h : s.once = true) :
    Close c s = ((c.EncClose s.world).1,
      { frameEntries := [], once := true, world := (c.EncClose s.world).2,
        calls := s.calls ++ [.EncClose] }) := by
  unfold Close
  simp [h, Append]

theorem Close_of_open {W : Type} (c : Collaborators W) (s : WriterImpl W)
    (h : s.once = false) :
    Close c s = (Append (writeSeekTable c s).1 (c.EncClose (writeSeekTable c s).2.world).1,
      { frameEntries := [], once := true,
        world := (c.EncClose (writeSeekTable c s).2.world).2,
        calls := (writeSeekTable c s).2.calls ++ [.EncClose] }) := by
  unfold Close
  simp [h, Append]

theorem CloseN_of_closed {W : Type} (c : Collaborators W) (m : Nat) (s : WriterImpl W)
    (h : s.once = true) :
    (CloseN c m s).calls = s.calls ++ List.replicate m .EncClose := by
  induction m generalizing s with
  | zero => simp [CloseN]
  | succ m ih =>
    rw [CloseN, ih _ (by rw [Close_of_closed c s h]), Close_of_closed c s h]
    simp [List.replicate_succ]

theorem putUint32_length (v : Nat) : (putUint32 v).length = 4 := rfl

theorem putUint32_uint32 (v : Nat) : putUint32 (uint32 v) = putUint32 v := by
  unfold putUint32 uint32
  congr 1
  · omega
  · congr 1
    · omega
    · congr 1
      · omega
      · congr 1
        omega

theorem marshalEntry_length (e : SeekTableEntry) : e.marshalBinaryInline.length = 12 := rfl

theorem flatMap_marshal_length (es : List SeekTableEntry) :
    (es.flatMap SeekTableEntry.marshalBinaryInline).length = es.length * 12 := by
  induction es with
  | nil => rfl
  | cons e es ih =>
    rw [List.flatMap_cons, List.length_append, ih, marshalEntry_length, List.length_cons]
    omega

theorem putSlice_append (pre bs : Bytes) (k : Nat) (lo : Nat) (hlo : pre.length = lo) :
    putSlice (pre ++ List.replicate (bs.length + k) 0) lo bs
      = pre ++ bs ++ List.replicate k 0 := by
  unfold putSlice
  subst hlo
  rw [List.take_left, List.drop_append, List.drop_replicate]
  simp

theorem marshalEntries_eq (es : List SeekTableEntry) (i : Nat) (pre : Bytes) (k : Nat)
    (hpre : pre.length = i * 12) :
    marshalEntries es i (pre ++ List.replicate (es.length * 12 + k) 0)
      = pre ++ es.flatMap SeekTableEntry.marshalBinaryInline ++ List.replicate k 0 := by
  induction es generalizing i pre with
  | nil => simp [marshalEntries]
  | cons e es ih =>
    rw [marshalEntries]
    have h1 : (e :: es).length * 12 + k = e.marshalBinaryInline.length + (es.length * 12 + k) := by
      rw [marshalEntry_length, List.length_cons]; omega
    rw [h1, putSlice_append pre _ _ _ hpre, ih (i + 1) (pre ++ e.marshalBinaryInline)
      (by rw [List.length_append, hpre, marshalEntry_length]; omega)]
    simp [List.flatMap_cons]

/-- The payload `writeSeekTable` builds in its buffer: the marshalled entries
followed by the marshalled footer. -/
theorem writeSeekTable_eq {W : Type} (c : Collaborators W) (s : WriterImpl W)
    (h : s.frameEntries.length ≤ MaxUint32) :
    writeSeekTable c s
      = match CreateSkippableFrame seekableTag
          (s.frameEntries.flatMap SeekTableEntry.marshalBinaryInline ++
            SeekTableFooter.marshalBinaryInline
              ⟨uint32 s.frameEntries.length, ⟨true⟩, seekableMagicNumber⟩) with
        | .error err => (some (.single err), s)
        | .ok seekTableBytes =>
          ((c.WriteSeekTable s.world seekTableBytes).1.2,
           { s with
             world := (c.WriteSeekTable s.world seekTableBytes).2
             calls := s.calls ++ [.WriteSeekTable seekTableBytes] }) := by
  have hbuf : marshalEntries s.frameEntries 0 (make (s.frameEntries.length * 12 + 9))
      = s.frameEntries.flatMap SeekTableEntry.marshalBinaryInline ++ List.replicate 9 0 := by
    have := marshalEntries_eq s.frameEntries 0 [] 9 rfl
    simpa [make] using this
  have hfoot : ∀ f : SeekTableFooter,
      putSlice (s.frameEntries.flatMap SeekTableEntry.marshalBinaryInline ++ List.replicate 9 0)
        (s.frameEntries.length * 12) f.marshalBinaryInline
      = s.frameEntries.flatMap SeekTableEntry.marshalBinaryInline ++ f.marshalBinaryInline := by
    intro f
    have := putSlice_append (s.frameEntries.flatMap SeekTableEntry.marshalBinaryInline)
      f.marshalBinaryInline 0 (s.frameEntries.length * 12) (flatMap_marshal_length _)
    simpa using this
  unfold writeSeekTable
  simp only []
  rw [if_neg (by omega), hbuf, hfoot]

theorem seekTable_payload_length (entries : List SeekTableEntry) (f : SeekTableFooter) :
    (entries.flatMap SeekTableEntry.marshalBinaryInline ++ f.marshalBinaryInline).length
      = 12 * entries.length + 9 := by
  have h9 : f.marshalBinaryInline.length = 9 := rfl
  rw [List.length_append, flatMap_marshal_length, h9]
  omega

theorem writeSeekTable_of_le {W : Type} (c : Collaborators W) (s : WriterImpl W)
    (h : 12 * s.frameEntries.length + 9 ≤ MaxUint32) :
    writeSeekTable c s
      = ((c.WriteSeekTable s.world (seekTableFrame s.frameEntries)).1.2,
         { s with
           world := (c.WriteSeekTable s.world (seekTableFrame s.frameEntries)).2
           calls := s.calls ++ [.WriteSeekTable (seekTableFrame s.frameEntries)] }) := by
  have hframe :
      CreateSkippableFrame seekableTag
        (s.frameEntries.flatMap SeekTableEntry.marshalBinaryInline ++
          SeekTableFooter.marshalBinaryInline
            ⟨uint32 s.frameEntries.length, ⟨true⟩, seekableMagicNumber⟩)
      = .ok (seekTableFrame s.frameEntries) := by
    unfold CreateSkippableFrame
    rw [if_neg (by decide), if_neg (by rw [seekTable_payload_length]; omega),
      if_neg (by rw [seekTable_payload_length]; omega)]
    rw [putUint32_uint32, seekTable_payload_length]
    have hm : putUint32 (skippableFrameMagic ||| seekableTag) = [0x5E, 0x2A, 0x4D, 0x18] := by
      decide
    have hm2 : putUint32 seekableMagicNumber = [0xB1, 0xEA, 0x92, 0x8F] := by decide
    simp only [SeekTableFooter.marshalBinaryInline, putUint32_uint32, seekTableFrame, hm, hm2]
    simp [SeekTableEntry.marshalBinaryInline]
    rfl
  rw [writeSeekTable_eq c s (by omega), hframe]

/-- From 357913941 entries on the footer payload does not fit the frame-size
field: `writeSeekTable` returns the codec's error and the sink is not called. -/
theorem writeSeekTable_of_big {W : Type} (c : Collaborators W) (s : WriterImpl W)
    (h1 : s.frameEntries.length ≤ MaxUint32)
    (h2 : 12 * s.frameEntries.length + 9 > MaxUint32) :
    writeSeekTable c s
      = (some (.single (.frameTooBig (12 * s.frameEntries.length + 9) MaxUint32)), s) := by
  have hframe :
      CreateSkippableFrame seekableTag
        (s.frameEntries.flatMap SeekTableEntry.marshalBinaryInline ++
          SeekTableFooter.marshalBinaryInline
            ⟨uint32 s.frameEntries.length, ⟨true⟩, seekableMagicNumber⟩)
      = .error (.frameTooBig (12 * s.frameEntries.length + 9) MaxUint32) := by
    unfold CreateSkippableFrame
    rw [if_neg (by decide), if_neg (by rw [seekTable_payload_length]; omega),
      if_pos (by rw [seekTable_payload_length]; exact h2), seekTable_payload_length]
  rw [writeSeekTable_eq c s h1, hframe]

theorem getUint32_putUint32 (v : Nat) (rest : Bytes) :
    getUint32 (putUint32 v ++ rest) = v % 4294967296 := by
  simp only [getUint32, putUint32, List.cons_append, List.nil_append, List.getD_cons_zero,
    List.getD_cons_succ]
  omega

theorem Close_calls_of_le {W : Type} (c : Collaborators W) (s : WriterImpl W)
    (hopen : s.once = false) (hn : 12 * s.frameEntries.length + 9 ≤ MaxUint32) :
    (Close c s).2.calls
      = s.calls ++ [.WriteSeekTable (seekTableFrame s.frameEntries), .EncClose] := by
  rw [Close_of_open c s hopen, writeSeekTable_of_le c s hn]
  simp

theorem seekTableFrame_length (entries : List SeekTableEntry) :
    (seekTableFrame entries).length = 12 * entries.length + 17 := by
  have := flatMap_marshal_length entries
  unfold SeekTableEntry.marshalBinaryInline at this
  simp only [seekTableFrame, List.length_append, putUint32_length, this, List.length_cons,
    List.length_nil]
  omega

theorem WriteAll_once {W : Type} (c : Collaborators W) (s : WriterImpl W) (chunks : List Bytes) :
    (WriteAll c s chunks).once = s.once := by
  induction chunks generalizing s with
  | nil => rfl
  | cons src rest ih =>
    rw [WriteAll, ih]
    unfold Write
    split
    · rfl
    · split
      · rfl
      · simp only []
        split
        · rfl
        · split
          · rfl
          · split <;> rfl

theorem seekTableFrame_split (entries : List SeekTableEntry) :
    seekTableFrame entries
      = ([0x5E, 0x2A, 0x4D, 0x18] ++ putUint32 (12 * entries.length + 9)
          ++ entries.flatMap SeekTableEntry.marshalBinaryInline)
        ++ (putUint32 entries.length ++ ([0x80] ++ [0xB1, 0xEA, 0x92, 0x8F])) := by
  simp [seekTableFrame, SeekTableEntry.marshalBinaryInline]
  rfl

theorem seekTableFrame_drop_footer (entries : List SeekTableEntry) :
    (seekTableFrame entries).drop ((seekTableFrame entries).length - 9)
      = putUint32 entries.length ++ ([0x80] ++ [0xB1, 0xEA, 0x92, 0x8F]) := by
  rw [seekTableFrame_length, seekTableFrame_split]
  apply List.drop_left'
  rw [List.length_append, List.length_append, flatMap_marshal_length, putUint32_length]
  simp
  omega

theorem seekTableFrame_drop_magic (entries : List SeekTableEntry) :
    (seekTableFrame entries).drop ((seekTableFrame entries).length - 4)
      = [0xB1, 0xEA, 0x92, 0x8F] := by
  have h : (seekTableFrame entries).length - 4 = ((seekTableFrame entries).length - 9) + 5 := by
    rw [seekTableFrame_length]; omega
  rw [h, ← List.drop_drop, seekTableFrame_drop_footer]
  rfl

theorem WriteAll_of_fit {W : Type} (c : Collaborators W) (s : WriterImpl W) (chunks : List Bytes)
    (hchunks : ChunksFit chunks) (hframes : FramesFit c s.world chunks) :
    WriteAll c s chunks =
      { frameEntries := s.frameEntries
          ++ List.zipWith (entryOf c) chunks (framesOf c s.world chunks)
        once := s.once
        world := worldAfter c s.world chunks
        calls := s.calls ++ writeCalls chunks (framesOf c s.world chunks) } := by
  induction chunks generalizing s with
  | nil => simp [WriteAll, framesOf, worldAfter, writeCalls]
  | cons src rest ih =>
    have h1 := hchunks src (by simp)
    have h3 : (c.EncodeAll s.world src).1.length ≤ MaxUint32 := hframes _ (by simp [framesOf])
    have hs := Write_state_of_fits c s src h1.1 h1.2 h3
    rw [WriteAll, ih (Write c s src).2 (fun x hx => hchunks x (by simp [hx]))
      (by
        rw [hs]
        intro dst hdst
        exact hframes dst (by simp only [framesOf, List.mem_cons]; exact Or.inr hdst))]
    rw [hs]
    simp [framesOf, worldAfter, writeCalls]

theorem framesOf_length {W : Type} (c : Collaborators W) (w : W) (chunks : List Bytes) :
    (framesOf c w chunks).length = chunks.length := by
  induction chunks generalizing w with
  | nil => rfl
  | cons src rest ih => simp [framesOf, ih]

theorem getUint32_frame_size (entries : List SeekTableEntry) :
    getUint32 ((seekTableFrame entries).drop 4) = (12 * entries.length + 9) % 4294967296 := by
  simp only [seekTableFrame, List.cons_append, List.drop_succ_cons, List.drop_zero,
    List.nil_append, List.append_assoc]
  rw [getUint32_putUint32]

theorem getUint32_first_decompressedSize (e : SeekTableEntry) (es : List SeekTableEntry) :
    getUint32 ((seekTableFrame (e :: es)).drop 12) = e.DecompressedSize % 4294967296 := by
  have h : (seekTableFrame (e :: es)).drop 12
      = putUint32 e.DecompressedSize ++ (putUint32 e.Checksum ++
          (es.flatMap (fun e =>
              putUint32 e.CompressedSize ++ putUint32 e.DecompressedSize ++ putUint32 e.Checksum)
            ++ putUint32 (e :: es).length ++ [0x80] ++ [0xB1, 0xEA, 0x92, 0x8F])) := by
    simp [seekTableFrame, putUint32]
  rw [h, getUint32_putUint32]

theorem bigWriter_length : bigWriter.frameEntries.length = 357913941 := by
  show (List.replicate 357913941 _).length = 357913941
  rw [List.length_replicate]

theorem Close_of_big {W : Type} (c : Collaborators W) (s : WriterImpl W)
    (hopen : s.once = false) (h1 : s.frameEntries.length ≤ MaxUint32)
    (h2 : 12 * s.frameEntries.length + 9 > MaxUint32) :
    Close c s
      = (Append (some (.single (.frameTooBig (12 * s.frameEntries.length + 9) MaxUint32)))
          (c.EncClose s.world).1,
        { frameEntries := [], once := true, world := (c.EncClose s.world).2,
          calls := s.calls ++ [.EncClose] }) := by
  rw [Close_of_open c s hopen, writeSeekTable_of_big c s h1 h2]

/-- C4 fails as stated: a writer that holds 357913941 entries, a number within
`MaxUint32`, has a footer payload of `MaxUint32 + 6` bytes, which the frame-size
field cannot hold; `Close` returns the encoding error and hands nothing to
`WriteSeekTable`. -/
theorem Close_no_footer_when_size_overflows :
    bigWriter.once = false ∧ bigWriter.frameEntries.length = 357913941 ∧
    357913941 ≤ MaxUint32 ∧
    (Close bufferCollaborators bigWriter).1
      = some (.single (.frameTooBig 4294967301 MaxUint32)) ∧
    (Close bufferCollaborators bigWriter).2.calls = [.EncClose] := by
  have hc := Close_of_big bufferCollaborators bigWriter rfl
    (by rw [bigWriter_length]; decide) (by rw [bigWriter_length]; decide)
  rw [bigWriter_length] at hc
  refine ⟨rfl, bigWriter_length, by decide, ?_, ?_⟩
  · rw [hc]; rfl
  · rw [hc]; rfl

/-- C4 as amended. Footer layout. For a writer not yet closed whose index holds
`n` entries with `12n + 9 ≤ MaxUint32`, that is `n ≤ 357913940`, `Close` hands to
`WriteSeekTable` exactly one slice `p` of `12n+17` bytes: the magic
`5E 2A 4D 18`, the little-endian `uint32` of `12n+9` (which reads back as
`12n+9`), for each entry in write order its `CompressedSize`,
`DecompressedSize` and `Checksum` as little-endian `uint32`, then `n` as
little-endian `uint32` (which reads back as `n`), the descriptor byte `0x80`,
and the last four bytes `B1 EA 92 8F`. For the chunks "test1", "test2", with
frames that fit, the frame count read from `p` is 2, the frame size is `0x21`
and the first entry's `DecompressedSize` is 5. -/
theorem Close_footer_layout {W : Type} (c : Collaborators W) (s : WriterImpl W)
    (hopen : s.once = false) (hn : 12 * s.frameEntries.length + 9 ≤ MaxUint32) :
    ∃ p, (Close c s).2.calls = s.calls ++ [.WriteSeekTable p, .EncClose] ∧
      p.length = 12 * s.frameEntries.length + 17 ∧
      p = [0x5E, 0x2A, 0x4D, 0x18] ++ putUint32 (12 * s.frameEntries.length + 9)
          ++ s.frameEntries.flatMap (fun e =>
              putUint32 e.CompressedSize ++ putUint32 e.DecompressedSize ++ putUint32 e.Checksum)
          ++ putUint32 s.frameEntries.length ++ [0x80] ++ [0xB1, 0xEA, 0x92, 0x8F] ∧
      p.drop (p.length - 4) = [0xB1, 0xEA, 0x92, 0x8F] ∧
      getUint32 (p.drop (p.length - 9)) = s.frameEntries.length ∧
      getUint32 (p.drop 4) = 12 * s.frameEntries.length + 9 ∧
      (∀ w, s = WriteAll c (NewWriter w) [[116, 101, 115, 116, 49], [116, 101, 115, 116, 50]] →
        FramesFit c w [[116, 101, 115, 116, 49], [116, 101, 115, 116, 50]] →
          getUint32 (p.drop (p.length - 9)) = 2 ∧ getUint32 (p.drop 4) = 0x21 ∧
          getUint32 (p.drop 12) = 5) := by
  refine ⟨seekTableFrame s.frameEntries, Close_calls_of_le c s hopen hn,
    seekTableFrame_length _, rfl, seekTableFrame_drop_magic _, ?_, ?_, ?_⟩
  · rw [seekTableFrame_drop_footer, getUint32_putUint32]
    unfold MaxUint32 at hn
    omega
  · rw [getUint32_frame_size]
    unfold MaxUint32 at hn
    omega
  · intro w hs hfit
    have hrun := WriteAll_of_fit c (NewWriter w)
      [[116, 101, 115, 116, 49], [116, 101, 115, 116, 50]]
      (by intro x hx; simp at hx; rcases hx with rfl | rfl <;> decide) hfit
    rw [← hs] at hrun
    obtain ⟨d1, d2, hd⟩ : ∃ d1 d2, framesOf c (NewWriter w).world
        [[116, 101, 115, 116, 49], [116, 101, 115, 116, 50]] = [d1, d2] := ⟨_, _, rfl⟩
    rw [hd] at hrun
    have hentries : s.frameEntries
        = [entryOf c [116, 101, 115, 116, 49] d1, entryOf c [116, 101, 115, 116, 50] d2] := by
      rw [hrun]; rfl
    rw [hentries]
    refine ⟨?_, ?_, ?_⟩
    · rw [seekTableFrame_drop_footer, getUint32_putUint32]
      rfl
    · rw [getUint32_frame_size]
      rfl
    · rw [getUint32_first_decompressedSize]
      rfl

/-- C4 as amended, at a concrete input: "test1" and "test2" written to an in-memory sink. -/
theorem Close_footer_layout_witness :
    ∃ p, (Close bufferCollaborators (WriteAll bufferCollaborators (NewWriter [])
        [[116, 101, 115, 116, 49], [116, 101, 115, 116, 50]])).2.calls
      = [.EncodeAll [116, 101, 115, 116, 49], .WriteFrame [40, 116, 101, 115, 116, 49],
         .EncodeAll [116, 101, 115, 116, 50], .WriteFrame [40, 116, 101, 115, 116, 50],
         .WriteSeekTable p, .EncClose] ∧
      p.length = 41 ∧ p.drop 37 = [0xB1, 0xEA, 0x92, 0x8F] ∧ getUint32 (p.drop 32) = 2 ∧
      getUint32 (p.drop 4) = 0x21 ∧ getUint32 (p.drop 12) = 5 := by
  obtain ⟨p, h1, h2, _, h4, _, _, h6⟩ := Close_footer_layout bufferCollaborators
    (WriteAll bufferCollaborators (NewWriter [])
      [[116, 101, 115, 116, 49], [116, 101, 115, 116, 50]]) (by decide) (by decide)
  have h7 := h6 [] rfl (by unfold FramesFit; decide)
  exact ⟨p, h1, h2, by rw [h2] at h4; exact h4, by rw [h2] at h7; exact h7.1, h7.2.1, h7.2.2⟩

theorem countWriteSeekTable_append (xs ys : List Call) :
    countWriteSeekTable (xs ++ ys) = countWriteSeekTable xs + countWriteSeekTable ys := by
  simp [countWriteSeekTable]

theorem countWriteSeekTable_replicate (m : Nat) :
    countWriteSeekTable (List.replicate m Call.EncClose) = 0 := by
  induction m with
  | zero => rfl
  | succ m ih =>
    rw [List.replicate_succ]
    have := countWriteSeekTable_append [Call.EncClose] (List.replicate m Call.EncClose)
    simp only [List.singleton_append] at this
    rw [this, ih]
    rfl

theorem CloseN_calls_of_le {W : Type} (c : Collaborators W) (s : WriterImpl W) (m : Nat)
    (hopen : s.once = false) (hn : 12 * s.frameEntries.length + 9 ≤ MaxUint32) :
    (CloseN c (m + 1) s).calls
      = s.calls ++ [.WriteSeekTable (seekTableFrame s.frameEntries)]
          ++ List.replicate (m + 1) .EncClose := by
  rw [CloseN, CloseN_of_closed c m _ (by rw [Close_of_open c s hopen]),
    Close_calls_of_le c s hopen hn, List.replicate_succ]
  simp

theorem CloseN_calls_of_gt {W : Type} (c : Collaborators W) (s : WriterImpl W) (m : Nat)
    (hopen : s.once = false) (hn : s.frameEntries.length > MaxUint32) :
    (CloseN c (m + 1) s).calls = s.calls ++ List.replicate (m + 1) .EncClose := by
  rw [CloseN, CloseN_of_closed c m _ (by rw [Close_of_open c s hopen]),
    Close_of_open c s hopen, writeSeekTable_of_gt c s hn, List.replicate_succ]
  simp

theorem CloseN_calls_of_big {W : Type} (c : Collaborators W) (s : WriterImpl W) (m : Nat)
    (hopen : s.once = false) (h1 : s.frameEntries.length ≤ MaxUint32)
    (h2 : 12 * s.frameEntries.length + 9 > MaxUint32) :
    (CloseN c (m + 1) s).calls = s.calls ++ List.replicate (m + 1) .EncClose := by
  rw [CloseN, CloseN_of_closed c m _ (by rw [Close_of_open c s hopen]),
    Close_of_big c s hopen h1 h2, List.replicate_succ]
  simp

/-- C7 fails as stated: on a writer that holds `MaxUint32 + 1` entries,
`writeSeekTable` returns its error before reaching the sink, so one `Close`, or
two, invoke `WriteSeekTable` zero times; and the same already holds on a writer
that holds 357913941 entries, whose footer payload does not fit the frame-size
field. -/
theorem Close_full_writer_no_footer :
    fullWriter.once = false ∧
    countWriteSeekTable (CloseN bufferCollaborators 1 fullWriter).calls = 0 ∧
    countWriteSeekTable (CloseN bufferCollaborators 2 fullWriter).calls = 0 ∧
    bigWriter.once = false ∧ bigWriter.frameEntries.length = 357913941 ∧
    countWriteSeekTable (CloseN bufferCollaborators 1 bigWriter).calls = 0 ∧
    countWriteSeekTable (CloseN bufferCollaborators 2 bigWriter).calls = 0 := by
  have hlen : fullWriter.frameEntries.length > MaxUint32 := by
    show (List.replicate 4294967296 _).length > 4294967295
    rw [List.length_replicate]
    omega
  have hb1 : bigWriter.frameEntries.length ≤ MaxUint32 := by
    rw [bigWriter_length]; decide
  have hb2 : 12 * bigWriter.frameEntries.length + 9 > MaxUint32 := by
    rw [bigWriter_length]; decide
  refine ⟨rfl, ?_, ?_, rfl, bigWriter_length, ?_, ?_⟩
  · rw [CloseN_calls_of_gt bufferCollaborators fullWriter 0 rfl hlen]
    exact countWriteSeekTable_replicate 1
  · rw [CloseN_calls_of_gt bufferCollaborators fullWriter 1 rfl hlen]
    exact countWriteSeekTable_replicate 2
  · rw [CloseN_calls_of_big bufferCollaborators bigWriter 0 rfl hb1 hb2]
    exact countWriteSeekTable_replicate 1
  · rw [CloseN_calls_of_big bufferCollaborators bigWriter 1 rfl hb1 hb2]
    exact countWriteSeekTable_replicate 2

/-- C7 as amended. For a writer not yet closed whose index holds `n` entries
with `12n + 9 ≤ MaxUint32`, that is `n ≤ 357913940`, and every number `m ≥ 1` of
`Close` calls in a row: `WriteSeekTable` is invoked exactly once, during the
first `Close`; the calls made are that one `WriteSeekTable` followed by `m`
encoder releases, so the footer bytes reach the sink once. -/
theorem Close_footer_once {W : Type} (c : Collaborators W) (s : WriterImpl W) (m : Nat)
    (hopen : s.once = false) (hn : 12 * s.frameEntries.length + 9 ≤ MaxUint32)
    (hm : 1 ≤ m) :
    (∃ p, (CloseN c m s).calls = s.calls ++ [.WriteSeekTable p] ++ List.replicate m .EncClose ∧
      (Close c s).2.calls = s.calls ++ [.WriteSeekTable p, .EncClose]) ∧
    countWriteSeekTable (CloseN c m s).calls = countWriteSeekTable s.calls + 1 ∧
    countWriteSeekTable (Close c s).2.calls = countWriteSeekTable s.calls + 1 := by
  obtain ⟨k, rfl⟩ : ∃ k, m = k + 1 := ⟨m - 1, by omega⟩
  have h1 := CloseN_calls_of_le c s k hopen hn
  have h2 := Close_calls_of_le c s hopen hn
  refine ⟨⟨_, h1, h2⟩, ?_, ?_⟩
  · rw [h1, countWriteSeekTable_append, countWriteSeekTable_append,
      countWriteSeekTable_replicate]
    rfl
  · rw [h2, countWriteSeekTable_append]
    rfl

/-- C7 as amended, at a concrete input: one chunk written, then three `Close` calls. -/
theorem Close_footer_once_witness :
    countWriteSeekTable (CloseN bufferCollaborators 3
      (WriteAll bufferCollaborators (NewWriter []) [[116, 101, 115, 116, 49]])).calls = 1 :=
  (Close_footer_once bufferCollaborators
    (WriteAll bufferCollaborators (NewWriter []) [[116, 101, 115, 116, 49]]) 3
    (by decide) (by decide) (by decide)).2.1

/-- C8 fails as stated: with a sink that refuses the seek table and an encoder
whose release succeeds, the first `Close` returns the sink's error and the
second `Close` returns nil. -/
theorem Close_twice_differs :
    (Close brokenFooterCollaborators (NewWriter [])).1 = some (.single (.collaborator 1)) ∧
    (Close brokenFooterCollaborators (Close brokenFooterCollaborators (NewWriter [])).2).1
      = none := by
  decide

/-- C8 as amended. After a first `Close`, a second `Close` returns exactly the
result of the encoder release it performs; the footer error of the first
`Close` is not kept. So the two calls return the same status whenever the footer
write of the first `Close` returned no error and the encoder release gives the
same result both times. -/
theorem Close_twice {W : Type} (c : Collaborators W) (s : WriterImpl W)
    (hopen : s.once = false) :
    (Close c (Close c s).2).1 = (c.EncClose (Close c s).2.world).1 ∧
    ((writeSeekTable c s).1 = none →
      (c.EncClose (Close c s).2.world).1 = (c.EncClose (writeSeekTable c s).2.world).1 →
        (Close c (Close c s).2).1 = (Close c s).1) := by
  have hclosed : (Close c s).2.once = true := by rw [Close_of_open c s hopen]
  refine ⟨by rw [Close_of_closed c _ hclosed], ?_⟩
  intro hft hrel
  rw [Close_of_closed c _ hclosed]
  simp only []
  rw [hrel, Close_of_open c s hopen, hft]
  rfl

/-- C8 as amended, at a concrete input: a new writer over an in-memory sink. -/
theorem Close_twice_witness :
    (Close bufferCollaborators (Close bufferCollaborators (NewWriter [])).2).1
      = (Close bufferCollaborators (NewWriter [])).1 :=
  (Close_twice bufferCollaborators (NewWriter []) rfl).2 (by decide) (by decide)

/-- C9. `Close` aggregates its errors. On the first `Close`: the encoder
release is called after `writeSeekTable` whatever `writeSeekTable` returned; the
returned error is nil if and only if `writeSeekTable` returned nil and the
release returned nil; and the errors carried by the result are those of
`writeSeekTable` followed by those of the release, so when both fail both are
reported. -/
theorem Close_aggregates {W : Type} (c : Collaborators W) (s : WriterImpl W)
    (hopen : s.once = false) :
    (Close c s).2.calls = (writeSeekTable c s).2.calls ++ [.EncClose] ∧
    ((Close c s).1 = none ↔
      (writeSeekTable c s).1 = none ∧ (c.EncClose (writeSeekTable c s).2.world).1 = none) ∧
    Errors (Close c s).1
      = Errors (writeSeekTable c s).1 ++ Errors (c.EncClose (writeSeekTable c s).2.world).1 := by
  rw [Close_of_open c s hopen]
  refine ⟨rfl, ?_, ?_⟩
  · simp only []
    cases (writeSeekTable c s).1 <;> cases (c.EncClose (writeSeekTable c s).2.world).1 <;>
      simp [Append]
  · simp only []
    cases h1 : (writeSeekTable c s).1 <;> cases h2 : (c.EncClose (writeSeekTable c s).2.world).1 <;>
      simp [Append, Errors]



/-- C9 at a concrete input: the sink refuses the seek table and the encoder
release fails; `Close` reports both errors, and the release was attempted. -/
theorem Close_aggregates_witness :
    Errors (Close failingCollaborators (NewWriter [])).1
      = [.collaborator 1, .collaborator 2] ∧
    Call.EncClose ∈ (Close failingCollaborators (NewWriter [])).2.calls := by
  have h := Close_aggregates failingCollaborators (NewWriter []) rfl
  exact ⟨h.2.2.trans (by decide), by rw [h.1]; simp⟩

/-! ### Round trip: reading the footer back -/

/-- Reading back marshalled entries whose fields fit a `uint32` gives the entries. -/
theorem readEntries_marshal (es : List SeekTableEntry) (rest : Bytes)
    (h : ∀ e ∈ es, e.CompressedSize < 4294967296 ∧ e.DecompressedSize < 4294967296 ∧
      e.Checksum < 4294967296) :
    readEntries es.length
      (es.flatMap (fun e =>
        putUint32 e.CompressedSize ++ putUint32 e.DecompressedSize ++ putUint32 e.Checksum)
        ++ rest) = es := by
  induction es with
  | nil => rfl
  | cons e es ih =>
    obtain ⟨h1, h2, h3⟩ := h e (by simp)
    have hd4 : ∀ t : Bytes, (putUint32 e.CompressedSize ++ t).drop 4 = t := by
      intro t; simp [putUint32]
    rw [List.length_cons, readEntries, List.flatMap_cons]
    simp only [List.append_assoc]
    rw [getUint32_putUint32, hd4, getUint32_putUint32]
    have hd8 : (putUint32 e.CompressedSize ++ (putUint32 e.DecompressedSize ++
        (putUint32 e.Checksum ++ (es.flatMap (fun e =>
          putUint32 e.CompressedSize ++ (putUint32 e.DecompressedSize ++ putUint32 e.Checksum))
          ++ rest)))).drop 8 = putUint32 e.Checksum ++ (es.flatMap (fun e =>
          putUint32 e.CompressedSize ++ (putUint32 e.DecompressedSize ++ putUint32 e.Checksum))
          ++ rest) := by
      simp [putUint32]
    have hd12 : (putUint32 e.CompressedSize ++ (putUint32 e.DecompressedSize ++
        (putUint32 e.Checksum ++ (es.flatMap (fun e =>
          putUint32 e.CompressedSize ++ (putUint32 e.DecompressedSize ++ putUint32 e.Checksum))
          ++ rest)))).drop 12 = es.flatMap (fun e =>
          putUint32 e.CompressedSize ++ (putUint32 e.DecompressedSize ++ putUint32 e.Checksum))
          ++ rest := by
      simp [putUint32]
    rw [hd8, hd12, getUint32_putUint32]
    have ih' := ih (fun x hx => h x (by simp [hx]))
    simp only [List.append_assoc] at ih'
    rw [ih', Nat.mod_eq_of_lt h1, Nat.mod_eq_of_lt h2, Nat.mod_eq_of_lt h3]

theorem drop_append_tail (data F : Bytes) (j : Nat) (hj : j ≤ F.length) :
    (data ++ F).drop ((data ++ F).length - j) = F.drop (F.length - j) := by
  have h : (data ++ F).length - j = data.length + (F.length - j) := by
    rw [List.length_append]; omega
  rw [h, ← List.drop_drop, List.drop_left]

theorem getUint32_frame_magic (entries : List SeekTableEntry) :
    getUint32 (seekTableFrame entries) = (skippableFrameMagic ||| seekableTag) := by
  simp only [seekTableFrame, List.cons_append, List.nil_append, getUint32, List.getD_cons_zero,
    List.getD_cons_succ]
  decide

theorem seekTableFrame_drop_header (entries : List SeekTableEntry) :
    (seekTableFrame entries).drop 8
      = entries.flatMap (fun e =>
          putUint32 e.CompressedSize ++ putUint32 e.DecompressedSize ++ putUint32 e.Checksum)
        ++ (putUint32 entries.length ++ ([0x80] ++ [0xB1, 0xEA, 0x92, 0x8F])) := by
  simp [seekTableFrame, putUint32]

theorem seekTableFrame_drop_header_length (entries : List SeekTableEntry) :
    ((seekTableFrame entries).drop 8).length = 12 * entries.length + 9 := by
  rw [List.length_drop, seekTableFrame_length]
  omega

theorem SkippableFrameTag_frame (entries : List SeekTableEntry) :
    SkippableFrameTag (seekTableFrame entries) = seekableTag := by
  unfold SkippableFrameTag
  rw [getUint32_frame_magic]
  decide

/-- Decoding the frame `writeSeekTable` hands to the sink gives back the
payload, when the payload fits the frame-size field. -/
theorem DecodeSkippableFrame_frame (entries : List SeekTableEntry)
    (hn : 12 * entries.length + 9 ≤ MaxUint32) :
    DecodeSkippableFrame (seekTableFrame entries)
      = some ((seekTableFrame entries).drop 8) := by
  have hsize : getUint32 ((seekTableFrame entries).drop 4) = 12 * entries.length + 9 := by
    rw [getUint32_frame_size]
    unfold MaxUint32 at hn
    omega
  have hmagic : getUint32 (seekTableFrame entries) = 0x184D2A5E := by
    rw [getUint32_frame_magic]
    decide
  unfold DecodeSkippableFrame
  rw [if_neg (by rw [seekTableFrame_length]; omega),
    if_neg (by rw [seekTableFrame_length]; omega), hmagic, if_neg (by decide), hsize,
    if_neg (by rw [seekTableFrame_drop_header_length]; omega)]
  have htake : List.take (12 * entries.length + 9) ((seekTableFrame entries).drop 8)
      = (seekTableFrame entries).drop 8 :=
    List.take_of_length_le (by rw [seekTableFrame_drop_header_length])
  rw [htake]

theorem readSeekTable_frame (data : Bytes) (entries : List SeekTableEntry)
    (hn : 12 * entries.length + 9 ≤ MaxUint32)
    (h : ∀ e ∈ entries, e.CompressedSize < 4294967296 ∧ e.DecompressedSize < 4294967296 ∧
      e.Checksum < 4294967296) :
    readSeekTable (data ++ seekTableFrame entries) = some entries := by
  have hlen := seekTableFrame_length entries
  have hfoot : (data ++ seekTableFrame entries).drop
      ((data ++ seekTableFrame entries).length - 9)
      = putUint32 entries.length ++ ([0x80] ++ [0xB1, 0xEA, 0x92, 0x8F]) := by
    rw [drop_append_tail _ _ 9 (by omega), seekTableFrame_drop_footer]
  have hnum : getUint32 ((data ++ seekTableFrame entries).drop
      ((data ++ seekTableFrame entries).length - 9)) = entries.length := by
    rw [hfoot, getUint32_putUint32]
    unfold MaxUint32 at hn
    omega
  have hmagic : getUint32 (((data ++ seekTableFrame entries).drop
      ((data ++ seekTableFrame entries).length - 9)).drop 5) = seekableMagicNumber := by
    rw [hfoot]
    have : (putUint32 entries.length ++ ([0x80] ++ [0xB1, 0xEA, 0x92, 0x8F])).drop 5
        = [0xB1, 0xEA, 0x92, 0x8F] := by
      simp [putUint32]
    rw [this]
    decide
  have hdesc : ((data ++ seekTableFrame entries).drop
      ((data ++ seekTableFrame entries).length - 9)).getD 4 0 / 128 % 2 = 1 := by
    rw [hfoot]
    simp [putUint32]
  have hframe : (data ++ seekTableFrame entries).drop
      ((data ++ seekTableFrame entries).length - (12 * entries.length + 17))
      = seekTableFrame entries := by
    rw [drop_append_tail _ _ _ (by omega), hlen]
    simp
  unfold readSeekTable
  rw [if_neg (by rw [List.length_append]; omega), if_neg (by rw [hmagic]; simp),
    if_neg (by rw [hdesc]; simp), hnum,
    if_neg (by rw [List.length_append]; omega), hframe, DecodeSkippableFrame_frame entries hn]
  simp only []
  rw [SkippableFrameTag_frame, if_neg (by simp),
    if_neg (by rw [seekTableFrame_drop_header_length]; simp),
    seekTableFrame_drop_header, readEntries_marshal entries _ h]

theorem splitFrames_flatten (frames : List Bytes) (rest : Bytes) :
    splitFrames (frames.map List.length) (frames.flatten ++ rest) = frames := by
  induction frames with
  | nil => rfl
  | cons f fs ih =>
    simp only [List.map_cons, List.flatten_cons, List.append_assoc, splitFrames]
    rw [List.take_left, List.drop_left, ih]

theorem sinkWrites_append (xs ys : List Call) :
    sinkWrites (xs ++ ys) = sinkWrites xs ++ sinkWrites ys := by
  induction xs with
  | nil => rfl
  | cons x xs ih => cases x <;> simp [sinkWrites, ih]

theorem sinkWrites_writeCalls (chunks frames : List Bytes)
    (h : frames.length = chunks.length) :
    sinkWrites (writeCalls chunks frames) = frames := by
  induction chunks generalizing frames with
  | nil =>
    cases frames with
    | nil => rfl
    | cons f fs => simp at h
  | cons src rest ih =>
    cases frames with
    | nil => simp at h
    | cons f fs =>
      simp only [writeCalls, sinkWrites]
      rw [ih fs (by simpa using h)]

theorem map_decompress_framesOf {W : Type} (c : Collaborators W) (w : W) (chunks : List Bytes)
    (decompress : Bytes → Bytes) (hcodec : ∀ w x, decompress (c.EncodeAll w x).1 = x) :
    (framesOf c w chunks).map decompress = chunks := by
  induction chunks generalizing w with
  | nil => rfl
  | cons src rest ih => simp [framesOf, hcodec, ih]

theorem WriteResults_of_fit {W : Type} (c : Collaborators W) (s : WriterImpl W)
    (chunks : List Bytes) (hsink : SinkAccepts c)
    (hchunks : ChunksFit chunks) (hframes : FramesFit c s.world chunks) :
    WriteResults c s chunks = chunks.map (fun src => ((src.length : Int), none)) := by
  induction chunks generalizing s with
  | nil => rfl
  | cons src rest ih =>
    have h1 := hchunks src (by simp)
    have h3 : (c.EncodeAll s.world src).1.length ≤ MaxUint32 := hframes _ (by simp [framesOf])
    have hs := Write_state_of_fits c s src h1.1 h1.2 h3
    rw [WriteResults, ih (Write c s src).2 (fun x hx => hchunks x (by simp [hx]))
      (by
        rw [hs]
        intro dst hdst
        exact hframes dst (by simp only [framesOf, List.mem_cons]; exact Or.inr hdst)),
      Write_result_of_fits c s src h1.1 h1.2 h3, hsink.1]
    simp

theorem uint32_lt (n : Nat) : uint32 n < 4294967296 := by
  unfold uint32; omega

theorem zipWith_entryOf {W : Type} (c : Collaborators W) (chunks frames : List Bytes)
    (hlen : frames.length = chunks.length)
    (hc : ∀ x ∈ chunks, x.length ≤ MaxUint32) (hf : ∀ d ∈ frames, d.length ≤ MaxUint32) :
    (List.zipWith (entryOf c) chunks frames).map (·.CompressedSize) = frames.map List.length ∧
    (List.zipWith (entryOf c) chunks frames).map (·.DecompressedSize)
      = chunks.map List.length := by
  induction chunks generalizing frames with
  | nil =>
    cases frames with
    | nil => exact ⟨rfl, rfl⟩
    | cons f fs => simp at hlen
  | cons src rest ih =>
    cases frames with
    | nil => simp at hlen
    | cons f fs =>
      obtain ⟨i1, i2⟩ := ih fs (by simpa using hlen) (fun x hx => hc x (by simp [hx]))
        (fun d hd => hf d (by simp [hd]))
      simp only [List.zipWith_cons_cons, List.map_cons, i1, i2, entryOf,
        uint32_of_le (hc src (by simp)), uint32_of_le (hf f (by simp)), and_self]

theorem zipWith_entryOf_lt {W : Type} (c : Collaborators W) (chunks frames : List Bytes) :
    ∀ e ∈ List.zipWith (entryOf c) chunks frames,
      e.CompressedSize < 4294967296 ∧ e.DecompressedSize < 4294967296 ∧
        e.Checksum < 4294967296 := by
  induction chunks generalizing frames with
  | nil => simp
  | cons src rest ih =>
    cases frames with
    | nil => simp
    | cons f fs =>
      intro e he
      rw [List.zipWith_cons_cons, List.mem_cons] at he
      rcases he with rfl | he
      · exact ⟨uint32_lt _, uint32_lt _, uint32_lt _⟩
      · exact ih fs e he

/-- C1 as amended. Writer round trip. For `k` non-empty chunks with
`12k + 9 ≤ MaxUint32`, that is `k ≤ 357913940`, of at most `MaxUint32` bytes
each, whose compressed frames are at most `MaxUint32` bytes each, a codec with `decompress (compress x) = x` and a sink that accepts
every write in full: every `Write` returns `(len(src), nil)`; after `Close` the
sink has received the `k` compressed frames in write order followed by one
footer; reading the seek table from the end of that stream gives `k` entries
whose `DecompressedSize` fields sum to the sum of the chunk lengths; and the
frames cut from the stream by the recorded `CompressedSize` values are the
frames written, which decompress, in order, to the chunks. -/
theorem Write_Close_round_trip {W : Type} (c : Collaborators W) (w : W) (chunks : List Bytes)
    (decompress : Bytes → Bytes)
    (hcodec : ∀ w x, decompress (c.EncodeAll w x).1 = x)
    (hsink : SinkAccepts c)
    (hchunks : ChunksFit chunks)
    (hframes : FramesFit c w chunks)
    (hk : 12 * chunks.length + 9 ≤ MaxUint32) :
    WriteResults c (NewWriter w) chunks = chunks.map (fun src => ((src.length : Int), none)) ∧
    ∃ frames footer entries,
      sinkWrites (Close c (WriteAll c (NewWriter w) chunks)).2.calls = frames ++ [footer] ∧
      frames.length = chunks.length ∧
      readSeekTable (frames ++ [footer]).flatten = some entries ∧
      entries.length = chunks.length ∧
      (entries.map (·.DecompressedSize)).sum = (chunks.map List.length).sum ∧
      splitFrames (entries.map (·.CompressedSize)) (frames ++ [footer]).flatten = frames ∧
      frames.map decompress = chunks ∧
      ((splitFrames (entries.map (·.CompressedSize)) (frames ++ [footer]).flatten).map
        decompress).flatten = chunks.flatten := by
  refine ⟨WriteResults_of_fit c (NewWriter w) chunks hsink hchunks hframes, ?_⟩
  have hrun := WriteAll_of_fit c (NewWriter w) chunks hchunks hframes
  have hflen := framesOf_length c w chunks
  have hzip := zipWith_entryOf c chunks (framesOf c w chunks) hflen
    (fun x hx => (hchunks x hx).2) hframes
  have hzlen : (List.zipWith (entryOf c) chunks (framesOf c w chunks)).length = chunks.length := by
    rw [List.length_zipWith, hflen, Nat.min_self]
  have hentries : (WriteAll c (NewWriter w) chunks).frameEntries
      = List.zipWith (entryOf c) chunks (framesOf c w chunks) := by
    rw [hrun]; rfl
  have hcalls : (Close c (WriteAll c (NewWriter w) chunks)).2.calls
      = writeCalls chunks (framesOf c w chunks)
        ++ [.WriteSeekTable (seekTableFrame (List.zipWith (entryOf c) chunks (framesOf c w chunks))),
            .EncClose] := by
    rw [Close_calls_of_le c _ (by rw [WriteAll_once]; rfl) (by rw [hentries, hzlen]; exact hk),
      hentries, hrun]
    rfl
  have hflat : (framesOf c w chunks ++
      [seekTableFrame (List.zipWith (entryOf c) chunks (framesOf c w chunks))]).flatten
      = (framesOf c w chunks).flatten
        ++ seekTableFrame (List.zipWith (entryOf c) chunks (framesOf c w chunks)) := by
    simp
  have hsplit : splitFrames
      ((List.zipWith (entryOf c) chunks (framesOf c w chunks)).map (·.CompressedSize))
      (framesOf c w chunks ++
        [seekTableFrame (List.zipWith (entryOf c) chunks (framesOf c w chunks))]).flatten
      = framesOf c w chunks := by
    rw [hflat, hzip.1, splitFrames_flatten]
  refine ⟨framesOf c w chunks,
    seekTableFrame (List.zipWith (entryOf c) chunks (framesOf c w chunks)),
    List.zipWith (entryOf c) chunks (framesOf c w chunks), ?_, hflen, ?_, hzlen, ?_, hsplit,
    map_decompress_framesOf c w chunks decompress hcodec, ?_⟩
  · rw [hcalls, sinkWrites_append, sinkWrites_writeCalls _ _ hflen]
    rfl
  · rw [hflat]
    exact readSeekTable_frame _ _ (by rw [hzlen]; exact hk) (zipWith_entryOf_lt c _ _)
  · rw [hzip.2]
  · rw [hsplit, map_decompress_framesOf c w chunks decompress hcodec]

/-- C1 as amended, at a concrete input: "test1" and "test2" written to an
in-memory sink, the stand-in codec undone by dropping its header byte. -/
theorem Write_Close_round_trip_witness :
    ChunksFit [[116, 101, 115, 116, 49], [116, 101, 115, 116, 50]] ∧
    FramesFit bufferCollaborators [] [[116, 101, 115, 116, 49], [116, 101, 115, 116, 50]] ∧
    WriteResults bufferCollaborators (NewWriter [])
        [[116, 101, 115, 116, 49], [116, 101, 115, 116, 50]] = [(5, none), (5, none)] ∧
    ∃ frames footer entries,
      sinkWrites (Close bufferCollaborators (WriteAll bufferCollaborators (NewWriter [])
        [[116, 101, 115, 116, 49], [116, 101, 115, 116, 50]])).2.calls = frames ++ [footer] ∧
      readSeekTable (frames ++ [footer]).flatten = some entries ∧
      entries.length = 2 ∧
      (entries.map (·.DecompressedSize)).sum = 10 ∧
      ((splitFrames (entries.map (·.CompressedSize)) (frames ++ [footer]).flatten).map
        List.tail).flatten = [116, 101, 115, 116, 49, 116, 101, 115, 116, 50] := by
  have hc : ChunksFit [[116, 101, 115, 116, 49], [116, 101, 115, 116, 50]] := by
    unfold ChunksFit; decide
  have hf : FramesFit bufferCollaborators []
      [[116, 101, 115, 116, 49], [116, 101, 115, 116, 50]] := by
    unfold FramesFit; decide
  obtain ⟨h0, frames, footer, entries, h1, _, h3, h4, h5, _, _, h8⟩ :=
    Write_Close_round_trip bufferCollaborators []
      [[116, 101, 115, 116, 49], [116, 101, 115, 116, 50]] List.tail
      (fun _ _ => rfl) ⟨fun _ _ => rfl, fun _ _ => rfl⟩ hc hf (by decide)
  exact ⟨hc, hf, h0, frames, footer, entries, h1, h3, h4, h5, h8⟩

theorem Write_of_result_too_big {W : Type} (c : Collaborators W) (s : WriterImpl W) (src : Bytes)
    (h1 : 1 ≤ src.length) (h2 : src.length ≤ MaxUint32)
    (h3 : (c.EncodeAll s.world src).1.length > MaxUint32) :
    Write c s src = ((0, some (.single (.resultTooBig src.length MaxUint32))),
      { s with world := (c.EncodeAll s.world src).2, calls := s.calls ++ [.EncodeAll src] }) := by
  unfold Write
  rw [if_neg (by omega), if_neg (by omega)]
  simp only []
  rw [if_pos h3]

theorem countWriteSeekTable_writeCalls (chunks frames : List Bytes) :
    countWriteSeekTable (writeCalls chunks frames) = 0 := by
  induction chunks generalizing frames with
  | nil => cases frames <;> rfl
  | cons src rest ih =>
    cases frames with
    | nil => rfl
    | cons f fs =>
      have := countWriteSeekTable_append [Call.EncodeAll src, Call.WriteFrame f]
        (writeCalls rest fs)
      simp only [List.cons_append, List.nil_append] at this
      rw [writeCalls, this, ih]
      rfl

theorem framesOf_buffer_fit (w : Bytes) (n : Nat) :
    FramesFit bufferCollaborators w (List.replicate n [1]) := by
  induction n generalizing w with
  | zero => intro dst hdst; simp [framesOf] at hdst
  | succ n ih =>
    intro dst hdst
    rw [List.replicate_succ, framesOf, List.mem_cons] at hdst
    rcases hdst with rfl | hdst
    · show ([40, 1] : Bytes).length ≤ MaxUint32
      decide
    · exact ih _ dst hdst

theorem paddingCollaborators_EncodeAll (w x : Bytes) :
    paddingCollaborators.EncodeAll w x = (x ++ List.replicate 4294967296 0, w) := rfl

theorem unpad_EncodeAll (w x : Bytes) : unpad (paddingCollaborators.EncodeAll w x).1 = x := by
  rw [paddingCollaborators_EncodeAll]
  simp only [unpad]
  rw [List.length_append, List.length_replicate, Nat.add_sub_cancel, List.take_left]

theorem padding_too_big (w x : Bytes) :
    (paddingCollaborators.EncodeAll w x).1.length > MaxUint32 := by
  rw [paddingCollaborators_EncodeAll]
  simp only []
  rw [List.length_append, List.length_replicate]
  unfold MaxUint32
  omega

theorem Write_padding :
    Write paddingCollaborators (NewWriter []) [1]
      = ((0, some (.single (.resultTooBig 1 MaxUint32))),
         { frameEntries := [], once := false, world := [], calls := [.EncodeAll [1]] }) := by
  rw [Write_of_result_too_big paddingCollaborators (NewWriter []) [1]
    (by decide) (by decide) (padding_too_big _ _)]
  rfl

theorem Close_after_padding :
    sinkWrites (Close paddingCollaborators
      (WriteAll paddingCollaborators (NewWriter []) [[1]])).2.calls = [seekTableFrame []] := by
  rw [WriteAll, WriteAll, Write_padding]
  rfl

theorem chunksFit_replicate (n : Nat) : ChunksFit (List.replicate n [1]) := by
  intro src hsrc
  rw [List.eq_of_mem_replicate hsrc]
  decide

theorem WriteAll_replicate_length (n : Nat) :
    (WriteAll bufferCollaborators (NewWriter []) (List.replicate n [1])).frameEntries.length
      = n := by
  rw [WriteAll_of_fit bufferCollaborators (NewWriter []) (List.replicate n [1])
    (chunksFit_replicate n) (framesOf_buffer_fit _ n)]
  simp only [NewWriter, List.nil_append]
  rw [List.length_zipWith, framesOf_length, List.length_replicate, Nat.min_self]

theorem WriteAll_replicate_calls (n : Nat) :
    countWriteSeekTable
      (WriteAll bufferCollaborators (NewWriter []) (List.replicate n [1])).calls = 0 := by
  rw [WriteAll_of_fit bufferCollaborators (NewWriter []) (List.replicate n [1])
    (chunksFit_replicate n) (framesOf_buffer_fit _ n)]
  simp only [NewWriter, List.nil_append]
  exact countWriteSeekTable_writeCalls _ _

theorem Close_too_many_chunks (n : Nat) (hn : n > MaxUint32) :
    countWriteSeekTable (Close bufferCollaborators
      (WriteAll bufferCollaborators (NewWriter []) (List.replicate n [1]))).2.calls = 0 := by
  rw [Close_of_open _ _ (by rw [WriteAll_once]; rfl),
    writeSeekTable_of_gt _ _ (by rw [WriteAll_replicate_length]; exact hn)]
  simp only []
  rw [countWriteSeekTable_append, WriteAll_replicate_calls]
  rfl

theorem Close_chunks_footer_too_big (n : Nat) (h1 : n ≤ MaxUint32)
    (h2 : 12 * n + 9 > MaxUint32) :
    countWriteSeekTable (Close bufferCollaborators
      (WriteAll bufferCollaborators (NewWriter []) (List.replicate n [1]))).2.calls = 0 := by
  rw [Close_of_big _ _ (by rw [WriteAll_once]; rfl)
    (by rw [WriteAll_replicate_length]; exact h1)
    (by rw [WriteAll_replicate_length]; exact h2)]
  simp only []
  rw [countWriteSeekTable_append, WriteAll_replicate_calls]
  rfl

/-- C1 fails as stated. First, with a codec that satisfies
`decompress (compress x) = x` but pads each chunk beyond `MaxUint32` bytes, and
an accepting sink, `Write` of the one-byte chunk returns the size error and the
sink receives only a footer with no frame. Second, with `MaxUint32 + 1` one-byte
chunks, `Close` never calls `WriteSeekTable`. Third, the same already holds with
357913941 one-byte chunks, whose footer payload does not fit the frame-size
field. -/
theorem round_trip_fails_beyond_uint32 :
    ((∀ w x, unpad (paddingCollaborators.EncodeAll w x).1 = x) ∧
      SinkAccepts paddingCollaborators ∧ ChunksFit [[1]] ∧
      WriteResults paddingCollaborators (NewWriter []) [[1]]
        = [(0, some (.single (.resultTooBig 1 MaxUint32)))] ∧
      sinkWrites (Close paddingCollaborators
        (WriteAll paddingCollaborators (NewWriter []) [[1]])).2.calls = [seekTableFrame []]) ∧
    ((∀ w x, List.tail (bufferCollaborators.EncodeAll w x).1 = x) ∧
      SinkAccepts bufferCollaborators ∧ ChunksFit (List.replicate 4294967296 [1]) ∧
      countWriteSeekTable (Close bufferCollaborators
        (WriteAll bufferCollaborators (NewWriter []) (List.replicate 4294967296 [1]))).2.calls
          = 0) ∧
    (ChunksFit (List.replicate 357913941 [1]) ∧
      FramesFit bufferCollaborators [] (List.replicate 357913941 [1]) ∧
      357913941 ≤ MaxUint32 ∧
      countWriteSeekTable (Close bufferCollaborators
        (WriteAll bufferCollaborators (NewWriter []) (List.replicate 357913941 [1]))).2.calls
          = 0) := by
  refine ⟨⟨unpad_EncodeAll, ⟨fun _ _ => rfl, fun _ _ => rfl⟩, chunksFit_replicate 1, ?_,
    Close_after_padding⟩,
    ⟨fun _ _ => rfl, ⟨fun _ _ => rfl, fun _ _ => rfl⟩, chunksFit_replicate _,
      Close_too_many_chunks _ (by unfold MaxUint32; omega)⟩,
    ⟨chunksFit_replicate _, framesOf_buffer_fit _ _, by decide,
      Close_chunks_footer_too_big _ (by decide) (by decide)⟩⟩
  rw [WriteResults, WriteResults, Write_padding]

/-! ### Writer: size limits, empty chunks, checksum, result shape -/

theorem Write_of_chunk_too_big {W : Type} (c : Collaborators W) (s : WriterImpl W) (src : Bytes)
    (h : src.length > MaxUint32) :
    Write c s src = ((0, some (.single (.chunkTooBig src.length MaxUint32))), s) := by
  unfold Write
  rw [if_pos h]

theorem Write_of_empty {W : Type} (c : Collaborators W) (s : WriterImpl W) (src : Bytes)
    (h : src.length = 0) : Write c s src = ((0, none), s) := by
  unfold Write
  rw [if_neg (by omega), if_pos h]

theorem hugeChunk_length : hugeChunk.length > MaxUint32 := by
  unfold hugeChunk MaxUint32
  rw [List.length_replicate]
  omega

/-- C11. ChunkTooLarge. For a chunk with `len(src) > MaxUint32`, `Write` returns
0 bytes and an error and leaves the writer as it was: the codec is not invoked,
the index is unchanged, nothing is handed to the sink. For a chunk that `Write`
hands to the codec (non-empty, at most `MaxUint32` bytes) and whose compressed
output is longer than `MaxUint32` bytes, `Write` returns 0 bytes and an error,
the index is unchanged, the only call made is the one `EncodeAll`, and nothing is
handed to the sink. -/
theorem Write_too_large {W : Type} (c : Collaborators W) (s : WriterImpl W) (src : Bytes) :
    (src.length > MaxUint32 →
      (Write c s src).1.1 = 0 ∧ (Write c s src).1.2 ≠ none ∧ (Write c s src).2 = s) ∧
    (1 ≤ src.length → src.length ≤ MaxUint32 →
      (c.EncodeAll s.world src).1.length > MaxUint32 →
        (Write c s src).1.1 = 0 ∧ (Write c s src).1.2 ≠ none ∧
        (Write c s src).2.frameEntries = s.frameEntries ∧
        (Write c s src).2.calls = s.calls ++ [.EncodeAll src] ∧
        sinkWrites (Write c s src).2.calls = sinkWrites s.calls) := by
  refine ⟨?_, ?_⟩
  · intro h
    rw [Write_of_chunk_too_big c s src h]
    exact ⟨rfl, by simp, rfl⟩
  · intro h1 h2 h3
    rw [Write_of_result_too_big c s src h1 h2 h3]
    refine ⟨rfl, by simp, rfl, rfl, ?_⟩
    simp only []
    rw [sinkWrites_append]
    simp [sinkWrites]

/-- C11 at concrete inputs: a chunk of `MaxUint32 + 1` bytes, and a one-byte
chunk under a codec that pads it beyond `MaxUint32` bytes. -/
theorem Write_too_large_witness :
    ((Write bufferCollaborators (NewWriter []) hugeChunk).1.1 = 0 ∧
      (Write bufferCollaborators (NewWriter []) hugeChunk).1.2 ≠ none ∧
      (Write bufferCollaborators (NewWriter []) hugeChunk).2 = NewWriter []) ∧
    ((Write paddingCollaborators (NewWriter []) [1]).1.1 = 0 ∧
      (Write paddingCollaborators (NewWriter []) [1]).1.2 ≠ none ∧
      (Write paddingCollaborators (NewWriter []) [1]).2.frameEntries = [] ∧
      sinkWrites (Write paddingCollaborators (NewWriter []) [1]).2.calls = []) := by
  have h1 := (Write_too_large bufferCollaborators (NewWriter []) hugeChunk).1 hugeChunk_length
  have h2 := (Write_too_large paddingCollaborators (NewWriter []) [1]).2
    (by decide) (by decide) (padding_too_big _ _)
  exact ⟨h1, h2.1, h2.2.1, h2.2.2.1, h2.2.2.2.2⟩

/-- C20. The result shape of `io.Writer`. For every writer state, chunk, codec
and sink, `Write` returns either `(len(src), nil)` or `(0, err)` with `err`
non-nil; the count is never strictly between 0 and `len(src)`, and never smaller
than `len(src)` together with a nil error. -/
theorem Write_result_shape {W : Type} (c : Collaborators W) (s : WriterImpl W) (src : Bytes) :
    ((Write c s src).1 = ((src.length : Int), none) ∨
      ((Write c s src).1.1 = 0 ∧ (Write c s src).1.2 ≠ none)) ∧
    ¬ (0 < (Write c s src).1.1 ∧ (Write c s src).1.1 < (src.length : Int)) ∧
    ¬ ((Write c s src).1.1 < (src.length : Int) ∧ (Write c s src).1.2 = none) := by
  have key : (Write c s src).1 = ((src.length : Int), none) ∨
      ((Write c s src).1.1 = 0 ∧ (Write c s src).1.2 ≠ none) := by
    by_cases h0 : src.length > MaxUint32
    · rw [Write_of_chunk_too_big c s src h0]
      exact Or.inr ⟨rfl, by simp⟩
    · by_cases h1 : src.length = 0
      · rw [Write_of_empty c s src h1, h1]
        exact Or.inl rfl
      · by_cases h3 : (c.EncodeAll s.world src).1.length > MaxUint32
        · rw [Write_of_result_too_big c s src (by omega) (by omega) h3]
          exact Or.inr ⟨rfl, by simp⟩
        · rw [Write_result_of_fits c s src (by omega) (by omega) (by omega)]
          cases (c.WriteFrame (c.EncodeAll s.world src).2 (c.EncodeAll s.world src).1).1.2 with
          | some err => exact Or.inr ⟨rfl, by simp⟩
          | none =>
            simp only []
            split
            · exact Or.inr ⟨rfl, by simp⟩
            · exact Or.inl rfl
  refine ⟨key, ?_, ?_⟩
  · rcases key with h | h
    · rw [h]; simp
    · rw [h.1]; simp
  · rcases key with h | h
    · rw [h]; simp
    · intro hh; exact h.2 hh.2

theorem uint32_shl32shr32 (h : Nat) : uint32 (shl32shr32 h) = h % 4294967296 := by
  unfold uint32 shl32shr32
  omega

/-- C13. Checksum field. For every 64-bit value `h`, `uint32((h << 32) >> 32)`
in wrapping 64-bit arithmetic is `h mod 2^32`; and the entry `Write` appends for
a non-empty chunk within the limits has as `Checksum` the low 32 bits of
`Sum64(src)`, the hash of the uncompressed chunk. -/
theorem Write_checksum {W : Type} (c : Collaborators W) (s : WriterImpl W) (src : Bytes) :
    (∀ h : Nat, h < 18446744073709551616 → uint32 (shl32shr32 h) = h % 4294967296) ∧
    (1 ≤ src.length → src.length ≤ MaxUint32 →
      (c.EncodeAll s.world src).1.length ≤ MaxUint32 →
        ∃ e, (Write c s src).2.frameEntries = s.frameEntries ++ [e] ∧
          e.Checksum = (c.Sum64 src % 18446744073709551616) % 4294967296) := by
  refine ⟨fun h _ => uint32_shl32shr32 h, ?_⟩
  intro h1 h2 h3
  rw [Write_state_of_fits c s src h1 h2 h3]
  exact ⟨_, rfl, uint32_shl32shr32 _⟩

/-- C13 at a concrete input: a 64-bit value, and "test1" under a stand-in hash. -/
theorem Write_checksum_witness :
    uint32 (shl32shr32 0xFEDCBA9876543210) = 0x76543210 ∧
    ∃ e, (Write bufferCollaborators (NewWriter []) [116, 101, 115, 116, 49]).2.frameEntries
        = [e] ∧ e.Checksum = 497 := by
  have h := Write_checksum bufferCollaborators (NewWriter []) [116, 101, 115, 116, 49]
  obtain ⟨e, he1, he2⟩ := h.2 (by decide) (by decide) (by decide)
  exact ⟨(h.1 0xFEDCBA9876543210 (by decide)).trans (by decide), e, he1, he2.trans (by decide)⟩

theorem WriteAll_filter_nonempty {W : Type} (c : Collaborators W) (s : WriterImpl W)
    (chunks : List Bytes) :
    WriteAll c s chunks = WriteAll c s (chunks.filter (fun x => decide (x.length ≠ 0))) := by
  induction chunks generalizing s with
  | nil => rfl
  | cons src rest ih =>
    by_cases h : src.length = 0
    · rw [List.filter_cons_of_neg (by simpa using h), WriteAll, Write_of_empty c s src h]
      exact ih s
    · rw [List.filter_cons_of_pos (by simpa using h), WriteAll, WriteAll]
      exact ih _

/-- C12. An empty chunk is a no-op. For every writer state, `Write` of the
zero-length chunk returns `(0, nil)` and leaves the writer as it was: the codec
is not invoked, the index is unchanged, nothing is handed to the sink. So
writing a sequence of chunks leaves the writer where writing its non-empty
chunks alone leaves it, and `Close` then does the same in both cases; when the
non-empty chunks and the footer fit, the frame count in the footer that `Close`
writes is the number of entries before plus the number of non-empty chunks. -/
theorem Write_empty_noop {W : Type} (c : Collaborators W) (s : WriterImpl W)
    (chunks : List Bytes) :
    Write c s [] = ((0, none), s) ∧
    WriteAll c s chunks = WriteAll c s (chunks.filter (fun x => decide (x.length ≠ 0))) ∧
    Close c (WriteAll c s chunks)
      = Close c (WriteAll c s (chunks.filter (fun x => decide (x.length ≠ 0)))) ∧
    (s.once = false → (∀ src ∈ chunks, src.length ≤ MaxUint32) →
      FramesFit c s.world (chunks.filter (fun x => decide (x.length ≠ 0))) →
      12 * (s.frameEntries.length + (chunks.filter (fun x => decide (x.length ≠ 0))).length)
        + 9 ≤ MaxUint32 →
        ∃ p, (Close c (WriteAll c s chunks)).2.calls
            = (WriteAll c s chunks).calls ++ [.WriteSeekTable p, .EncClose] ∧
          getUint32 (p.drop (p.length - 9))
            = s.frameEntries.length
              + (chunks.filter (fun x => decide (x.length ≠ 0))).length) := by
  refine ⟨Write_of_empty c s [] rfl, WriteAll_filter_nonempty c s chunks,
    by rw [← WriteAll_filter_nonempty], ?_⟩
  intro hopen hlen hfit hk
  have hchunks : ChunksFit (chunks.filter (fun x => decide (x.length ≠ 0))) := by
    intro src hsrc
    rw [List.mem_filter] at hsrc
    have h0 : src.length ≠ 0 := by simpa using hsrc.2
    exact ⟨by omega, hlen src hsrc.1⟩
  have hrun := WriteAll_of_fit c s _ hchunks hfit
  have hcount : (WriteAll c s chunks).frameEntries.length
      = s.frameEntries.length + (chunks.filter (fun x => decide (x.length ≠ 0))).length := by
    rw [WriteAll_filter_nonempty, hrun]
    simp only [List.length_append, List.length_zipWith, framesOf_length, Nat.min_self]
  refine ⟨seekTableFrame (WriteAll c s chunks).frameEntries,
    Close_calls_of_le c _ (by rw [WriteAll_once]; exact hopen) (by rw [hcount]; exact hk), ?_⟩
  rw [seekTableFrame_drop_footer, getUint32_putUint32, hcount]
  unfold MaxUint32 at hk
  omega

/-- C12 at a concrete input: five chunks, three of them empty, give a footer
that counts two frames. -/
theorem Write_empty_noop_witness :
    Write bufferCollaborators (NewWriter []) [] = ((0, none), NewWriter []) ∧
    ∃ p, Call.WriteSeekTable p ∈ (Close bufferCollaborators
        (WriteAll bufferCollaborators (NewWriter []) [[], [116], [], [101, 115], []])).2.calls ∧
      getUint32 (p.drop (p.length - 9)) = 2 := by
  have h := Write_empty_noop bufferCollaborators (NewWriter []) [[], [116], [], [101, 115], []]
  obtain ⟨p, hp1, hp2⟩ := h.2.2.2 rfl (by decide) (by unfold FramesFit; decide) (by decide)
  exact ⟨h.1, p, by rw [hp1]; simp, hp2.trans (by decide)⟩



/-- C14, the code at the failing input. `Write` of "test1", compressed to a
six-byte frame, returns the input count 5, while the entry it records has
`CompressedSize = 6`: the value returned is not the recorded compressed size. -/
theorem Write_result_differs_from_compressedSize :
    (Write bufferCollaborators (NewWriter []) [116, 101, 115, 116, 49]).1 = (5, none) ∧
    (Write bufferCollaborators (NewWriter []) [116, 101, 115, 116, 49]).2.frameEntries
      = [{ CompressedSize := 6, DecompressedSize := 5, Checksum := 497 }] ∧
    (bufferCollaborators.EncodeAll [] [116, 101, 115, 116, 49]).1.length = 6 := by
  decide

/-- C16, the code at the failing input. The sink takes 1 byte of the 17-byte
footer and reports no error; `writeSeekTable` drops the count, and `Close`
returns nil. -/
theorem Close_swallows_short_footer_write :
    (shortFooterCollaborators.WriteSeekTable [] (seekTableFrame [])).1 = (1, none) ∧
    (seekTableFrame []).length = 17 ∧
    (Close shortFooterCollaborators (NewWriter [])).1 = none ∧
    (Close shortFooterCollaborators (NewWriter [])).2.calls
      = [.WriteSeekTable (seekTableFrame []), .EncClose] ∧
    (Close shortFooterCollaborators (NewWriter [])).2.world = [0x5E] := by
  decide

/-! ### Skippable-frame encode -/

theorem skippable_magic_or (tag : Nat) (h : tag ≤ 0xF) :
    skippableFrameMagic ||| tag = 0x184D2A50 + tag := by
  unfold skippableFrameMagic
  interval_cases tag <;> rfl

/-- C15. Skippable-frame encode. For `tag > 0xF` the result is the invalid-tag
error, whatever the payload. For a tag in `0..15`: an empty payload gives an
empty result and no error; a non-empty payload of at most `MaxUint32` bytes
gives the four little-endian bytes of `0x184D2A50 | tag`, the four little-endian
bytes of `len(payload)`, then the payload. Tag 1 with payload 'T' gives
`51 2A 4D 18 01 00 00 00 54`; tag 0 with no payload gives nothing; tag 255 is
refused. -/
theorem CreateSkippableFrame_encode (tag : Nat) (payload : Bytes) :
    (tag > 0xF → CreateSkippableFrame tag payload = .error (.invalidTag tag)) ∧
    (tag ≤ 0xF → payload = [] → CreateSkippableFrame tag payload = .ok []) ∧
    (tag ≤ 0xF → payload ≠ [] → payload.length ≤ MaxUint32 →
      CreateSkippableFrame tag payload
        = .ok (putUint32 (0x184D2A50 ||| tag) ++ putUint32 payload.length ++ payload) ∧
      (∀ out, CreateSkippableFrame tag payload = .ok out →
        getUint32 out = 0x184D2A50 + tag ∧ getUint32 (out.drop 4) = payload.length ∧
        out.drop 8 = payload)) ∧
    CreateSkippableFrame 0x01 [0x54]
      = .ok [0x51, 0x2A, 0x4D, 0x18, 0x01, 0x00, 0x00, 0x00, 0x54] ∧
    CreateSkippableFrame 0x00 [] = .ok [] ∧
    CreateSkippableFrame 0xFF [0x54] = .error (.invalidTag 255) := by
  refine ⟨?_, ?_, ?_, rfl, rfl, rfl⟩
  · intro h
    unfold CreateSkippableFrame
    rw [if_pos h]
  · intro h hp
    unfold CreateSkippableFrame
    rw [if_neg (by omega), if_pos (by rw [hp]; rfl)]
  · intro h hp hlen
    have hne : payload.length ≠ 0 := by
      intro h0
      exact hp (List.length_eq_zero.mp h0)
    have heq : CreateSkippableFrame tag payload
        = .ok (putUint32 (0x184D2A50 ||| tag) ++ putUint32 payload.length ++ payload) := by
      unfold CreateSkippableFrame
      rw [if_neg (by omega), if_neg hne, if_neg (by omega), putUint32_uint32]
      rfl
    refine ⟨heq, ?_⟩
    intro out hout
    rw [heq] at hout
    injection hout with hout
    subst hout
    have hm := skippable_magic_or tag h
    unfold skippableFrameMagic at hm
    have hd4 : (putUint32 (0x184D2A50 ||| tag) ++ putUint32 payload.length ++ payload).drop 4
        = putUint32 payload.length ++ payload := by
      simp [putUint32]
    have hd8 : (putUint32 (0x184D2A50 ||| tag) ++ putUint32 payload.length ++ payload).drop 8
        = payload := by
      simp [putUint32]
    refine ⟨?_, ?_, hd8⟩
    · rw [List.append_assoc, getUint32_putUint32, hm]
      omega
    · rw [hd4, getUint32_putUint32]
      unfold MaxUint32 at hlen
      omega



/-! ### Decoder: the cost of the lookup by id -/

theorem iterate_visits_fst (id : Int) (l : List FrameOffsetEntry)
    (st : Option FrameOffsetEntry × Nat) :
    (iterate (fun (index : FrameOffsetEntry) (st : Option FrameOffsetEntry × Nat) =>
        if index.ID = id then ((some index, st.2 + 1), false) else ((st.1, st.2 + 1), true))
      l st).1
    = iterate (fun (index : FrameOffsetEntry) (found : Option FrameOffsetEntry) =>
        if index.ID = id then (some index, false) else (found, true)) l st.1 := by
  induction l generalizing st with
  | nil => rfl
  | cons a as ih =>
    by_cases h : a.ID = id
    · simp [iterate, h]
    · simp [iterate, h, ih]

theorem GetIndexByIDVisits_fst (r : readerImpl) (id : Int) :
    (r.GetIndexByIDVisits id).1 = r.GetIndexByID id := by
  unfold readerImpl.GetIndexByIDVisits readerImpl.GetIndexByID BTree.Descend
  by_cases h : id < 0
  · rw [if_pos h, if_pos h]
  · rw [if_neg h, if_neg h, iterate_visits_fst]

/-- Scanning the reverse of a list with dense ids: the count of visited entries. -/
theorem iterate_visits_dense (n : Nat) (l : List FrameOffsetEntry)
    (hids : ∀ i (h : i < l.length), (l.get ⟨i, h⟩).ID = (i : Int))
    (st : Option FrameOffsetEntry × Nat) :
    (iterate (fun (index : FrameOffsetEntry) (st : Option FrameOffsetEntry × Nat) =>
        if index.ID = (n : Int) then ((some index, st.2 + 1), false)
        else ((st.1, st.2 + 1), true))
      l.reverse st).2
    = st.2 + (if n < l.length then l.length - n else l.length) := by
  induction l using List.reverseRecOn generalizing st with
  | nil => simp [iterate]
  | append_singleton init x ih =>
    have hx : x.ID = (init.length : Int) := by
      have := hids init.length (by simp)
      simpa using this
    have hinit : ∀ i (h : i < init.length), (init.get ⟨i, h⟩).ID = (i : Int) := by
      intro i h
      have := hids i (by simp; omega)
      simpa [List.getElem_append_left, h] using this
    rw [List.reverse_append, List.reverse_singleton, List.singleton_append, List.length_append,
      List.length_singleton]
    by_cases h : x.ID = (n : Int)
    · have hres : (iterate (fun (index : FrameOffsetEntry)
          (st : Option FrameOffsetEntry × Nat) =>
          if index.ID = (n : Int) then ((some index, st.2 + 1), false)
          else ((st.1, st.2 + 1), true))
          (x :: init.reverse) st).2 = st.2 + 1 := by
        simp [iterate, h]
      have hlen : init.length = n := by
        rw [hx] at h
        exact_mod_cast h
      rw [hres, hlen, if_pos (by omega)]
      omega
    · have hres : (iterate (fun (index : FrameOffsetEntry)
          (st : Option FrameOffsetEntry × Nat) =>
          if index.ID = (n : Int) then ((some index, st.2 + 1), false)
          else ((st.1, st.2 + 1), true))
          (x :: init.reverse) st).2
          = (iterate (fun (index : FrameOffsetEntry)
          (st : Option FrameOffsetEntry × Nat) =>
          if index.ID = (n : Int) then ((some index, st.2 + 1), false)
          else ((st.1, st.2 + 1), true))
          init.reverse (st.1, st.2 + 1)).2 := by
        simp [iterate, h]
      have hih := ih hinit (st.1, st.2 + 1)
      have hlen : init.length ≠ n := by
        intro hl
        apply h
        rw [hx, hl]
      rw [hres, hih]
      show st.2 + 1 + (if n < init.length then init.length - n else init.length)
        = st.2 + (if n < init.length + 1 then init.length + 1 - n else init.length + 1)
      split <;> split <;> omega

theorem GetIndexByIDVisits_dense (r : readerImpl) (id : Int)
    (hids : ∀ i (h : i < r.index.length), (r.index.get ⟨i, h⟩).ID = (i : Int)) :
    (r.GetIndexByIDVisits id).2
      = if id < 0 then 0
        else if id.toNat < r.index.length then r.index.length - id.toNat
        else r.index.length := by
  unfold readerImpl.GetIndexByIDVisits BTree.Descend
  by_cases h : id < 0
  · rw [if_pos h, if_pos h]
  · rw [if_neg h, if_neg h]
    obtain ⟨n, rfl⟩ : ∃ n : Nat, id = (n : Int) := ⟨id.toNat, (Int.toNat_of_nonneg (by omega)).symm⟩
    rw [iterate_visits_dense n r.index hids]
    simp

theorem denseReader_length (n : Nat) : (denseReader n).index.length = n := by
  simp [denseReader]

theorem denseReader_ids (n : Nat) :
    ∀ i (h : i < (denseReader n).index.length),
      ((denseReader n).index.get ⟨i, h⟩).ID = (i : Int) := by
  intro i h
  simp [denseReader]

theorem denseReader_sizes (n k : Nat) :
    (((denseReader n).index.take k).map (·.DecompSize)).sum = min k n := by
  simp only [denseReader, ← List.map_take, List.take_range, List.map_map]
  have : ((fun x : FrameOffsetEntry => x.DecompSize) ∘ fun (i : Nat) =>
      (FrameOffsetEntry.mk (i : Int) i i 1 1 0)) = fun _ => 1 := rfl
  rw [this, List.map_const', List.length_range, List.sum_replicate]
  simp

theorem denseReader_invariant (n : Nat) : IndexInvariant (denseReader n) := by
  refine ⟨denseReader_ids n, ?_, ?_, ?_⟩
  · intro i h
    rw [denseReader_sizes]
    have hi : i < n := by rw [denseReader_length] at h; exact h
    simp [denseReader]
    omega
  · intro e he
    simp only [denseReader, List.mem_map] at he
    obtain ⟨i, _, rfl⟩ := he
    exact le_refl 1
  · have h := denseReader_sizes n n
    have hlen := denseReader_length n
    have ht : (denseReader n).index.take n = (denseReader n).index :=
      List.take_of_length_le (by rw [hlen])
    rw [ht] at h
    rw [h]
    simp [denseReader]

/-- C17 fails as stated. On the three-entry example index the lookup of id 0
visits all 3 entries; and no constant bounds the number of entries
`GetIndexByID` visits, even over indexes that satisfy the data-model invariant. -/
theorem GetIndexByID_visits_unbounded :
    (exampleReader.GetIndexByIDVisits 0).1 = exampleReader.GetIndexByID 0 ∧
    (exampleReader.GetIndexByIDVisits 0).2 = 3 ∧
    ¬ ∃ c : Nat, ∀ (r : readerImpl) (id : Int),
        IndexInvariant r → (r.GetIndexByIDVisits id).2 ≤ c := by
  refine ⟨by decide, by decide, ?_⟩
  rintro ⟨c, hc⟩
  have h := hc (denseReader (c + 1)) 0 (denseReader_invariant (c + 1))
  rw [GetIndexByIDVisits_dense _ _ (denseReader_ids (c + 1)), denseReader_length] at h
  simp at h

/-- C17 as amended. `GetIndexByID` scans the index from the last entry down and
stops at the first entry with the id. On an index of `n` entries that carry the
ids `0..n-1` in order it visits no entry for `id < 0`, `n - id` entries for
`0 ≤ id < n`, and all `n` entries for `id ≥ n`: at most `n`, and `n` for id 0.
The counter does not change the entry returned. -/
theorem GetIndexByID_visits (r : readerImpl) (id : Int)
    (hids : ∀ i (h : i < r.index.length), (r.index.get ⟨i, h⟩).ID = (i : Int)) :
    (r.GetIndexByIDVisits id).1 = r.GetIndexByID id ∧
    (id < 0 → (r.GetIndexByIDVisits id).2 = 0) ∧
    (0 ≤ id → id < (r.index.length : Int) →
      (r.GetIndexByIDVisits id).2 = r.index.length - id.toNat) ∧
    ((r.index.length : Int) ≤ id → (r.GetIndexByIDVisits id).2 = r.index.length) ∧
    (r.GetIndexByIDVisits id).2 ≤ r.index.length := by
  have h := GetIndexByIDVisits_dense r id hids
  refine ⟨GetIndexByIDVisits_fst r id, ?_, ?_, ?_, ?_⟩
  · intro hneg
    rw [h, if_pos hneg]
  · intro h0 hlt
    rw [h, if_neg (by omega), if_pos (by omega)]
  · intro hge
    rw [h, if_neg (by omega), if_neg (by omega)]
  · rw [h]
    split
    · omega
    · split <;> omega

/-- C17 as amended, at a concrete input. -/
theorem GetIndexByID_visits_witness :
    (exampleReader.GetIndexByIDVisits 0).2 = 3 ∧ (exampleReader.GetIndexByIDVisits 2).2 = 1 ∧
    (exampleReader.GetIndexByIDVisits 7).2 = 3 ∧ (exampleReader.GetIndexByIDVisits (-1)).2 = 0 := by
  have h := fun id => GetIndexByID_visits exampleReader id (by decide)
  exact ⟨(h 0).2.2.1 (by decide) (by decide), (h 2).2.2.1 (by decide) (by decide),
    (h 7).2.2.2.1 (by decide), (h (-1)).2.1 (by decide)⟩



/-! ### Writer: invariants of the index and the sink -/

/-- What one `Write` does to the index: nothing, or one entry for a chunk of
1 to `MaxUint32` bytes, with that length as `DecompressedSize`. -/
theorem Write_entries_cases {W : Type} (c : Collaborators W) (s : WriterImpl W) (src : Bytes) :
    (Write c s src).2.frameEntries = s.frameEntries ∨
    (1 ≤ src.length ∧
      (Write c s src).2.frameEntries
        = s.frameEntries ++ [entryOf c src (c.EncodeAll s.world src).1] ∧
      (entryOf c src (c.EncodeAll s.world src).1).DecompressedSize = src.length ∧
      (entryOf c src (c.EncodeAll s.world src).1).CompressedSize
        = (c.EncodeAll s.world src).1.length) := by
  by_cases h0 : src.length > MaxUint32
  · rw [Write_of_chunk_too_big c s src h0]
    exact Or.inl rfl
  · by_cases h1 : src.length = 0
    · rw [Write_of_empty c s src h1]
      exact Or.inl rfl
    · by_cases h3 : (c.EncodeAll s.world src).1.length > MaxUint32
      · rw [Write_of_result_too_big c s src (by omega) (by omega) h3]
        exact Or.inl rfl
      · rw [Write_state_of_fits c s src (by omega) (by omega) (by omega)]
        exact Or.inr ⟨by omega, rfl, uint32_of_le (by omega), uint32_of_le (by omega)⟩

theorem WriteAll_decompressedSizes {W : Type} (c : Collaborators W) (s : WriterImpl W)
    (chunks : List Bytes) :
    (WriteAll c s chunks).frameEntries.map (·.DecompressedSize)
      = s.frameEntries.map (·.DecompressedSize) ++ (recordedChunks c s chunks).map List.length ∧
    ∀ x ∈ recordedChunks c s chunks, 1 ≤ x.length := by
  induction chunks generalizing s with
  | nil => simp [WriteAll, recordedChunks]
  | cons src rest ih =>
    obtain ⟨ih1, ih2⟩ := ih (Write c s src).2
    rw [WriteAll, recordedChunks, ih1]
    rcases Write_entries_cases c s src with h | ⟨h1, h2, h3, _⟩
    · rw [h, if_neg (by omega)]
      exact ⟨by simp, by simpa using ih2⟩
    · rw [h2, if_pos (by simp)]
      refine ⟨by simp [h3], ?_⟩
      intro x hx
      rcases List.mem_append.mp hx with hx | hx
      · rw [List.mem_singleton.mp hx]; exact h1
      · exact ih2 x hx

theorem offsetsFrom_length (start : Nat) (es : List SeekTableEntry) :
    (offsetsFrom start es).length = es.length := by
  induction es generalizing start with
  | nil => rfl
  | cons e es ih => simp [offsetsFrom, ih]

theorem offsetsFrom_ge (start : Nat) (es : List SeekTableEntry) :
    ∀ x ∈ offsetsFrom start es, start ≤ x := by
  induction es generalizing start with
  | nil => simp [offsetsFrom]
  | cons e es ih =>
    intro x hx
    rw [offsetsFrom, List.mem_cons] at hx
    rcases hx with rfl | hx
    · exact le_refl _
    · have := ih _ x hx; omega

theorem offsetsFrom_pairwise (start : Nat) (es : List SeekTableEntry)
    (h : ∀ e ∈ es, 1 ≤ e.DecompressedSize) :
    (offsetsFrom start es).Pairwise (· < ·) := by
  induction es generalizing start with
  | nil => exact List.Pairwise.nil
  | cons e es ih =>
    rw [offsetsFrom, List.pairwise_cons]
    refine ⟨?_, ih _ (fun x hx => h x (by simp [hx]))⟩
    intro x hx
    have := offsetsFrom_ge _ _ x hx
    have := h e (by simp)
    omega

theorem offsetsFrom_get (start : Nat) (es : List SeekTableEntry) (i : Nat)
    (h : i < (offsetsFrom start es).length) :
    (offsetsFrom start es).get ⟨i, h⟩
      = start + ((es.map (·.DecompressedSize)).take i).sum := by
  induction es generalizing start i with
  | nil => simp [offsetsFrom] at h
  | cons e es ih =>
    cases i with
    | zero => simp [offsetsFrom]
    | succ i =>
      have h' : i < (offsetsFrom (start + e.DecompressedSize) es).length := by
        simpa [offsetsFrom] using h
      have := ih (start + e.DecompressedSize) i h'
      simp only [List.get_eq_getElem] at this
      simp only [offsetsFrom, List.get_eq_getElem, List.getElem_cons_succ, this, List.map_cons,
        List.take_succ_cons, List.sum_cons]
      omega

/-- C18. Strictly increasing offsets. In every state reached from a new writer
by any sequence of `Write` calls, whatever the chunks, the codec and the sink
do: every recorded entry has `DecompressedSize ≥ 1`; the offsets obtained by
running sums of `DecompressedSize` in entry order are strictly increasing; the
`DecompressedSize` fields are the lengths of the chunks whose `Write` appended
an entry; so the offset of entry `i` is the sum of the lengths of the chunks of
the entries before it. -/
theorem Write_offsets_increasing {W : Type} (c : Collaborators W) (w : W)
    (chunks : List Bytes) :
    (∀ e ∈ (WriteAll c (NewWriter w) chunks).frameEntries, 1 ≤ e.DecompressedSize) ∧
    (offsetsFrom 0 (WriteAll c (NewWriter w) chunks).frameEntries).Pairwise (· < ·) ∧
    (WriteAll c (NewWriter w) chunks).frameEntries.map (·.DecompressedSize)
      = (recordedChunks c (NewWriter w) chunks).map List.length ∧
    (∀ i (h : i < (offsetsFrom 0 (WriteAll c (NewWriter w) chunks).frameEntries).length),
      (offsetsFrom 0 (WriteAll c (NewWriter w) chunks).frameEntries).get ⟨i, h⟩
        = (((recordedChunks c (NewWriter w) chunks).take i).map List.length).sum) := by
  obtain ⟨h1, h2⟩ := WriteAll_decompressedSizes c (NewWriter w) chunks
  have hmap : (WriteAll c (NewWriter w) chunks).frameEntries.map (·.DecompressedSize)
      = (recordedChunks c (NewWriter w) chunks).map List.length := by
    rw [h1]; rfl
  have hsz : ∀ e ∈ (WriteAll c (NewWriter w) chunks).frameEntries, 1 ≤ e.DecompressedSize := by
    intro e he
    have hm : e.DecompressedSize
        ∈ (WriteAll c (NewWriter w) chunks).frameEntries.map (·.DecompressedSize) :=
      List.mem_map_of_mem _ he
    rw [hmap, List.mem_map] at hm
    obtain ⟨x, hx, hxe⟩ := hm
    rw [← hxe]
    exact h2 x hx
  refine ⟨hsz, offsetsFrom_pairwise 0 _ hsz, hmap, ?_⟩
  intro i h
  rw [offsetsFrom_get, hmap, List.map_take]
  omega



theorem frameWrites_append (xs ys : List Call) :
    frameWrites (xs ++ ys) = frameWrites xs ++ frameWrites ys := by
  induction xs with
  | nil => rfl
  | cons x xs ih => cases x <;> simp [frameWrites, ih]

/-- What one `Write` adds to the `WriteFrame` log, to the index and to an
appending sink. -/
theorem Write_step_in_step {W : Type} (c : Collaborators W) (s : WriterImpl W) (src : Bytes) :
    ∃ F E, frameWrites (Write c s src).2.calls = frameWrites s.calls ++ F ∧
      (Write c s src).2.frameEntries = s.frameEntries ++ E ∧
      F.map List.length = E.map (·.CompressedSize) ∧
      (∀ content, SinkAppends c content → (Write c s src).1.2 = none →
        content (Write c s src).2.world = content s.world ++ F.flatten) := by
  by_cases h0 : src.length > MaxUint32
  · rw [Write_of_chunk_too_big c s src h0]
    exact ⟨[], [], by simp, by simp, rfl, by intro _ _ _; simp⟩
  · by_cases h1 : src.length = 0
    · rw [Write_of_empty c s src h1]
      exact ⟨[], [], by simp, by simp, rfl, by intro _ _ _; simp⟩
    · by_cases h3 : (c.EncodeAll s.world src).1.length > MaxUint32
      · rw [Write_of_result_too_big c s src (by omega) (by omega) h3]
        refine ⟨[], [], ?_, by simp, rfl, ?_⟩
        · simp only []
          rw [frameWrites_append]
          simp [frameWrites]
        · intro content hsink _
          simp only [List.flatten_nil, List.append_nil]
          exact hsink.2 _ _
      · have hres := Write_result_of_fits c s src (by omega) (by omega) (by omega)
        rw [Write_state_of_fits c s src (by omega) (by omega) (by omega)]
        refine ⟨[(c.EncodeAll s.world src).1], [entryOf c src (c.EncodeAll s.world src).1],
          ?_, rfl, ?_, ?_⟩
        · simp only []
          rw [frameWrites_append]
          simp [frameWrites]
        · simp [entryOf, uint32_of_le (show (c.EncodeAll s.world src).1.length ≤ MaxUint32 by omega)]
        · intro content hsink hnil
          rw [hres] at hnil
          have hn : (c.WriteFrame (c.EncodeAll s.world src).2 (c.EncodeAll s.world src).1).1.1
              = ((c.EncodeAll s.world src).1.length : Int) := by
            cases he : (c.WriteFrame (c.EncodeAll s.world src).2
              (c.EncodeAll s.world src).1).1.2 with
            | some err => rw [he] at hnil; simp at hnil
            | none =>
              rw [he] at hnil
              simp only [] at hnil
              by_contra hne
              rw [if_pos hne] at hnil
              simp at hnil
          simp only [List.flatten_cons, List.flatten_nil, List.append_nil]
          rw [hsink.1, hn, hsink.2, Int.toNat_ofNat, List.take_length]

theorem WriteAll_in_step {W : Type} (c : Collaborators W) (s : WriterImpl W)
    (chunks : List Bytes) :
    ∃ F E, frameWrites (WriteAll c s chunks).calls = frameWrites s.calls ++ F ∧
      (WriteAll c s chunks).frameEntries = s.frameEntries ++ E ∧
      F.map List.length = E.map (·.CompressedSize) ∧
      (∀ content, SinkAppends c content →
        (∀ r ∈ WriteResults c s chunks, r.2 = none) →
        content (WriteAll c s chunks).world = content s.world ++ F.flatten) := by
  induction chunks generalizing s with
  | nil => exact ⟨[], [], by simp [WriteAll], by simp [WriteAll], rfl,
      by intro _ _ _; simp [WriteAll]⟩
  | cons src rest ih =>
    obtain ⟨F1, E1, a1, a2, a3, a4⟩ := Write_step_in_step c s src
    obtain ⟨F2, E2, b1, b2, b3, b4⟩ := ih (Write c s src).2
    refine ⟨F1 ++ F2, E1 ++ E2, ?_, ?_, ?_, ?_⟩
    · rw [WriteAll, b1, a1, List.append_assoc]
    · rw [WriteAll, b2, a2, List.append_assoc]
    · rw [List.map_append, List.map_append, a3, b3]
    · intro content hsink hok
      rw [WriteResults] at hok
      rw [WriteAll, b4 content hsink (fun r hr => hok r (by simp [hr])),
        a4 content hsink (hok _ (by simp)), List.flatten_append, List.append_assoc]

theorem flatten_drop_take (frames : List Bytes) (i : Nat) (h : i < frames.length) :
    (frames.flatten.drop (((frames.map List.length).take i).sum)).take
      (frames.get ⟨i, h⟩).length = frames.get ⟨i, h⟩ := by
  induction frames generalizing i with
  | nil => simp at h
  | cons f fs ih =>
    cases i with
    | zero => simp
    | succ i =>
      have h' : i < fs.length := by simpa using h
      have := ih i h'
      simp only [List.get_eq_getElem] at this
      simp only [List.map_cons, List.take_succ_cons, List.sum_cons, List.flatten_cons,
        List.get_eq_getElem, List.getElem_cons_succ]
      rw [← List.drop_drop, List.drop_left]
      exact this

/-- C19. Index and sink stay in step. In every state reached from a new writer
by `Write` calls none of which returned an error: the total number of bytes
passed to `WriteFrame` is the sum of `CompressedSize` over the recorded
entries, frame by frame; and for a sink that appends, the sink holds exactly the
frames in order after what it held before, the frame of entry `i` starting at
the offset given by the sum of `CompressedSize` of the entries before it. After
a `Write` that failed at the sink this is lost: a sink that took 1 byte of a
4-byte frame holds 1 byte while the index records 4. -/
theorem Write_index_sink_in_step {W : Type} (c : Collaborators W) (w : W)
    (chunks : List Bytes)
    (hok : ∀ r ∈ WriteResults c (NewWriter w) chunks, r.2 = none) :
    ((frameWrites (WriteAll c (NewWriter w) chunks).calls).map List.length).sum
      = ((WriteAll c (NewWriter w) chunks).frameEntries.map (·.CompressedSize)).sum ∧
    (frameWrites (WriteAll c (NewWriter w) chunks).calls).map List.length
      = (WriteAll c (NewWriter w) chunks).frameEntries.map (·.CompressedSize) ∧
    (∀ content, SinkAppends c content →
      content (WriteAll c (NewWriter w) chunks).world
        = content w ++ (frameWrites (WriteAll c (NewWriter w) chunks).calls).flatten ∧
      ∀ i (h : i < (frameWrites (WriteAll c (NewWriter w) chunks).calls).length),
        ((content (WriteAll c (NewWriter w) chunks).world).drop
          ((content w).length +
            (((WriteAll c (NewWriter w) chunks).frameEntries.map (·.CompressedSize)).take
              i).sum)).take
          ((frameWrites (WriteAll c (NewWriter w) chunks).calls).get ⟨i, h⟩).length
        = (frameWrites (WriteAll c (NewWriter w) chunks).calls).get ⟨i, h⟩) ∧
    (SinkAppends shortFrameCollaborators id ∧
      (Write shortFrameCollaborators (NewWriter []) [1, 2, 3]).1.2 ≠ none ∧
      (Write shortFrameCollaborators (NewWriter []) [1, 2, 3]).2.world.length = 1 ∧
      ((Write shortFrameCollaborators (NewWriter []) [1, 2, 3]).2.frameEntries.map
        (·.CompressedSize)).sum = 4) := by
  obtain ⟨F, E, h1, h2, h3, h4⟩ := WriteAll_in_step c (NewWriter w) chunks
  have hF : frameWrites (WriteAll c (NewWriter w) chunks).calls = F := by
    rw [h1]; rfl
  have hE : (WriteAll c (NewWriter w) chunks).frameEntries = E := by
    rw [h2]; rfl
  have hmap : (frameWrites (WriteAll c (NewWriter w) chunks).calls).map List.length
      = (WriteAll c (NewWriter w) chunks).frameEntries.map (·.CompressedSize) := by
    rw [hF, hE, h3]
  refine ⟨by rw [hmap], hmap, ?_, ?_⟩
  · intro content hsink
    have hcontent : content (WriteAll c (NewWriter w) chunks).world
        = content w ++ (frameWrites (WriteAll c (NewWriter w) chunks).calls).flatten := by
      rw [h4 content hsink hok, hF]
      rfl
    refine ⟨hcontent, ?_⟩
    intro i h
    rw [hcontent, ← hmap, ← List.drop_drop, List.drop_left]
    exact flatten_drop_take _ i h
  · refine ⟨⟨fun _ _ => rfl, fun _ _ => rfl⟩, by decide, by decide, by decide⟩

/-- C19 at a concrete input: two non-empty chunks and an empty one written to an
in-memory sink. -/
theorem Write_index_sink_in_step_witness :
    (WriteAll bufferCollaborators (NewWriter []) [[116], [], [101, 115]]).world
      = [40, 116, 40, 101, 115] ∧
    (WriteAll bufferCollaborators (NewWriter []) [[116], [], [101, 115]]).frameEntries.map
      (·.CompressedSize) = [2, 3] ∧
    ((frameWrites (WriteAll bufferCollaborators (NewWriter [])
      [[116], [], [101, 115]]).calls).map List.length).sum = 5 := by
  have h := Write_index_sink_in_step bufferCollaborators [] [[116], [], [101, 115]] (by decide)
  have hc := (h.2.2.1 id ⟨fun _ _ => by simp [bufferCollaborators], fun _ _ => rfl⟩).1
  exact ⟨hc.trans (by decide), by decide, h.1.trans (by decide)⟩

end Seekable
